import Mathlib

/-!
The go_APIProxy development: route registry, path templates and round-robin balancer

A shallow embedding of `proxy.go`.

* A Go `string` is a sequence of bytes: `Str := List UInt8`.  Every string
  operation of the source (`len`, indexing, slicing, `strings.Split`,
  `strings.Join`, `strings.HasPrefix`) works on bytes.  The `range` loops of
  `SetKey` and `AddHost` decode runes, but they only look for `:` and `*`,
  which are single bytes that never occur inside a multi-byte rune, so the
  index they find is the index of the first such byte.
* A Go call ends in one of three ways: it returns with a nil error, it returns
  a non-nil error, or it faults (a run-time panic: index or slice bound out of
  range).  `Outcome` keeps the three apart.
* `*Proxy` values live in the map `APIHandler.Proxies`; the registry is an
  association list and a route is identified by its key.  Functions that
  mutate a route or the registry return the new state next to their outcome.
* The two closures stored in a `Proxy` are represented by the variables they
  capture: `inSlice` for `InPathForm`, `outSlice` for `OutPathForm`, and the
  cursor `i` for the closure returned by `RoundRobin`.
-/

set_option autoImplicit false

namespace GoAPIProxy

/-- A Go string: its bytes. -/
abbrev Str := List UInt8

/-- The bytes of an ASCII string literal. -/
def ascii (s : String) : Str := s.toList.map (fun c => c.toNat.toUInt8)

/-- The byte `'/'`. -/
abbrev slash : UInt8 := 47
/-- The byte `':'`. -/
abbrev colon : UInt8 := 58
/-- The byte `'*'`. -/
abbrev star : UInt8 := 42

/-- The error values the source creates with `fmt.Errorf`. -/
inductive Err where
  /-- "no router" (MatchRouter) -/
  | noRouter
  /-- "url is empty" (SplitUrl) -/
  | urlIsEmpty
  /-- "inpath is too short" (inParamsFunc) -/
  | inpathTooShort
  /-- "key已经存在" (DeleteKey, returned when the key is absent) -/
  | deleteKeyAbsent
  /-- "要添加的key或value为空" (AddHost) -/
  | addHostEmpty
  /-- "要添加的key不存在" (AddHost) -/
  | addHostNoKey
  deriving DecidableEq, Repr

/-- How a Go call ends: a result with a nil error, a non-nil error, or a
run-time panic. -/
inductive Outcome (α : Type) where
  | ok (a : α)
  | error (e : Err)
  | fault
  deriving DecidableEq, Repr

/-- The slice expression `s[lo:hi]` on a string: faults (`none`) unless
`0 ≤ lo ≤ hi ≤ len(s)`. -/
def goSlice (s : Str) (lo hi : Int) : Option Str :=
  if 0 ≤ lo ∧ lo ≤ hi ∧ hi ≤ (s.length : Int) then
    some ((s.drop lo.toNat).take (hi.toNat - lo.toNat))
  else none

/-- The call `strings.Split(s, "/")`: the pieces of `s` between the
separators; always at least one piece. -/
def stringsSplit : Str → List Str
  | [] => [[]]
  | c :: cs =>
    if c = slash then [] :: stringsSplit cs
    else
      match stringsSplit cs with
      | [] => [[c]]
      | w :: ws => (c :: w) :: ws

/-- The call `strings.Join(elems, "/")`. -/
def stringsJoin : List Str → Str
  | [] => []
  | [e] => e
  | e :: es => e ++ slash :: stringsJoin es

/-- The call `strings.HasPrefix(s, pre)`. -/
def stringsHasPrefix (s pre : Str) : Bool := pre.isPrefixOf s

/-- `SplitUrl` (proxy.go 137-152). -/
def SplitUrl (url : Str) : Outcome (List Str) :=
  let l := url.length
  if l = 0 then .error .urlIsEmpty
  else
    -- `url[l-1] == '/'`, in range because `l > 0`
    let cut : Option Str :=
      if url.getLast? = some slash then goSlice url 0 ((url.length : Int) - 2)
      else some url
    match cut with
    | none => .fault
    | some url1 =>
      match stringsSplit url1 with
      | [] => .fault
      | s0 :: rest => if s0 = [] then .ok rest else .ok (s0 :: rest)

/-- `OutHost` (proxy.go 14-17). -/
structure OutHost where
  DomainName : Str
  Enable : Bool
  deriving DecidableEq, Repr

/-- `NewProxyValue` (proxy.go 20-26). -/
def NewProxyValue (value : Str) : OutHost :=
  { DomainName := value, Enable := true }

/-- The closure returned by `RoundRobin`: its captured cursor `i`. -/
structure LoadBalancer where
  i : Int
  deriving DecidableEq, Repr

/-- `LoadBalancerFactory` (proxy.go 42). -/
abbrev LoadBalancerFactory := Unit → LoadBalancer

/-- `RoundRobin` (proxy.go 44-55): a closure whose cursor starts at 0. -/
def RoundRobin : LoadBalancerFactory := fun _ => { i := 0 }

/-- `Proxy` (proxy.go 28-39).  `inSlice` is the variable captured by the
closure stored in `InPathForm`, `outSlice` the slice captured (and returned,
not copied) by the closure stored in `OutPathForm`. -/
structure Proxy where
  inSlice : List Str
  outSlice : List Str
  MinPathLen : Int
  HostsList : List OutHost
  BalancerName : Str
  LoadBalancer : LoadBalancer
  deriving DecidableEq, Repr

/-- The body of the closure returned by `RoundRobin` (proxy.go 46-54), called
as `p.LoadBalancer(p, r)`: the result and the route with the advanced
cursor. -/
def Proxy.callLoadBalancer (p : Proxy) : Outcome Str × Proxy :=
  let l : Int := p.HostsList.length
  let i : Int := if p.LoadBalancer.i > l - 1 then 0 else p.LoadBalancer.i
  match (if 0 ≤ i then p.HostsList[i.toNat]? else none) with
  | none => (.fault, { p with LoadBalancer := { i := i } })
  | some host => (.ok host.DomainName, { p with LoadBalancer := { i := i + 1 } })

/-- A Go `map[string]string` that is only written and read by key. -/
abbrev Params := Str → Option Str

/-- The assignment `ret[k] = v`. -/
def Params.set (ret : Params) (k v : Str) : Params :=
  fun x => if x = k then some v else ret x

/-- The index expression `in[k]`: the zero value `""` for an absent key. -/
def Params.index (m : Params) (k : Str) : Str := (m k).getD []

/-- The empty map `make(map[string]string)`. -/
def Params.empty : Params := fun _ => none

/-- The loop `for i, pattern := range inSlice` of `inParamsFunc`
(proxy.go 179-192), from index `i` on, `rest` being the segments of `inSlice`
not yet visited. -/
def inParamsLoop (req : List Str) : Nat → List Str → Params → Outcome Params
  | _, [], ret => .ok ret
  | i, pattern :: rest, ret =>
    if (i : Int) > (req.length : Int) - 1 then .error .inpathTooShort
    else
      match pattern.head?, req[i]? with
      | none, _ => .fault
      | some _, none => .fault
      | some c, some seg =>
        let ret1 := if c = colon then ret.set pattern seg else ret
        if c = star then
          .ok (ret1.set pattern (stringsJoin ((req.set i (slash :: seg)).drop i)))
        else inParamsLoop req (i + 1) rest ret1

/-- The closure `inParamsFunc` built by `SetKey` (proxy.go 173-194). -/
def inParamsFunc (inSlice : List Str) (path : Str) : Outcome Params :=
  match SplitUrl path with
  | .error e => .error e
  | .fault => .fault
  | .ok req => inParamsLoop req 0 inSlice Params.empty

/-- The loop `for index, value := range outPathSlice` of `CreatPath`
(proxy.go 114-120): the slice after the loop, and `false` when `value[0]`
faulted on an empty segment (the segments before it are already replaced). -/
def substLoop (params : Params) : List Str → Bool × List Str
  | [] => (true, [])
  | value :: rest =>
    match value.head? with
    | none => (false, value :: rest)
    | some c =>
      let v1 := if c = colon ∨ c = star then params.index value else value
      ((substLoop params rest).1, v1 :: (substLoop params rest).2)

/-- `CreatPath` (proxy.go 106-126): the result and the route, whose output
slice the function writes to. -/
def CreatPath (p : Proxy) (path : Str) : Outcome Str × Proxy :=
  match inParamsFunc p.inSlice path with
  | .error e => (.error e, p)
  | .fault => (.fault, p)
  | .ok params =>
    let r := substLoop params p.outSlice
    if r.1 = false then (.fault, { p with outSlice := r.2 })
    else
      match r.2 with
      | [] => (.fault, { p with outSlice := r.2 })
      | first :: rest =>
        match first.head? with
        | none => (.fault, { p with outSlice := r.2 })
        | some c =>
          let out2 := if c ≠ slash then (slash :: first) :: rest else first :: rest
          (.ok (stringsJoin out2), { p with outSlice := out2 })

/-- `APIHandler` (proxy.go 57-60): the map `Proxies` as the list of its
entries, one per key.  The lock `Mu` has no sequential meaning. -/
structure APIHandler where
  Proxies : List (Str × Proxy)
  deriving DecidableEq, Repr

/-- `NewAPIHandler` (proxy.go 62-66). -/
def NewAPIHandler : APIHandler := { Proxies := [] }

/-- The map read `h.Proxies[key]` with its `ok` flag. -/
def APIHandler.get (h : APIHandler) (key : Str) : Option Proxy :=
  (h.Proxies.find? (fun kv => kv.1 = key)).map Prod.snd

/-- Writing through the pointer stored under `key`: the entry of `key` is
replaced by `f` of it. -/
def APIHandler.modify (h : APIHandler) (key : Str) (f : Proxy → Proxy) : APIHandler :=
  { Proxies := h.Proxies.map (fun kv => if kv.1 = key then (kv.1, f kv.2) else kv) }

/-- The map write `h.Proxies[key] = p` for a key that is absent. -/
def APIHandler.insertNew (h : APIHandler) (key : Str) (p : Proxy) : APIHandler :=
  { Proxies := h.Proxies ++ [(key, p)] }

/-- The call `delete(h.Proxies, key)`. -/
def APIHandler.delete (h : APIHandler) (key : Str) : APIHandler :=
  { Proxies := h.Proxies.filter (fun kv => kv.1 ≠ key) }

/-- The keys of a map are distinct. -/
def APIHandler.WF (h : APIHandler) : Prop := (h.Proxies.map Prod.fst).Nodup

instance (h : APIHandler) : Decidable h.WF :=
  inferInstanceAs (Decidable (h.Proxies.map Prod.fst).Nodup)

/-- The order in which a `range` over the map yields its entries: Go leaves it
unspecified, so it is any rearrangement of the entries. -/
structure MapOrder where
  enum : List (Str × Proxy) → List (Str × Proxy)
  perm : ∀ l, (enum l).Perm l

/-- `MatchRouter` (proxy.go 127-136): the first entry of the enumeration whose
key is a prefix of `path`.  The returned pointer is the entry: its key and the
route stored under it. -/
def MatchRouter (handler : APIHandler) (order : MapOrder) (path : Str) :
    Outcome (Str × Proxy) :=
  match (order.enum handler.Proxies).find? (fun kv => stringsHasPrefix path kv.1) with
  | some kv => .ok kv
  | none => .error .noRouter

/-- The loop at the head of `SetKey` and `AddHost` (proxy.go 156-162 and
226-232), from byte index `i` on: at the first `:` or `*` the key is
`inPath[0 : i-1]`, which faults (`none`) when `i = 0`. -/
def keyLoop (inPath : Str) : Nat → Str → Option Str
  | _, [] => some inPath
  | i, v :: vs =>
    if v = colon ∨ v = star then goSlice inPath 0 ((i : Int) - 1)
    else keyLoop inPath (i + 1) vs

/-- The key derived from an input pattern; `none` is a fault. -/
def deriveKey (inPath : Str) : Option Str := keyLoop inPath 0 inPath

/-- `SetKey` (proxy.go 155-214). -/
def SetKey (h : APIHandler) (inPath out : Str) (balancerFactory : LoadBalancerFactory) :
    Outcome Unit × APIHandler :=
  match deriveKey inPath with
  | none => (.fault, h)
  | some key =>
    match SplitUrl inPath with
    | .error e => (.error e, h)
    | .fault => (.fault, h)
    | .ok inSlice =>
      match SplitUrl out with
      | .error e => (.error e, h)
      | .fault => (.fault, h)
      | .ok outSlice =>
        match h.get key with
        | some _ =>
          (.ok (), h.modify key (fun p =>
            { p with inSlice := inSlice, outSlice := outSlice,
                     LoadBalancer := balancerFactory () }))
        | none =>
          (.ok (), h.insertNew key
            { inSlice := inSlice, outSlice := outSlice, MinPathLen := 0,
              HostsList := [], BalancerName := [],
              LoadBalancer := balancerFactory () })

/-- `DeleteKey` (proxy.go 215-224). -/
def DeleteKey (h : APIHandler) (key : Str) : Outcome Unit × APIHandler :=
  match h.get key with
  | none => (.error .deleteKeyAbsent, h)
  | some _ => (.ok (), h.delete key)

/-- `AddHost` (proxy.go 225-247). -/
def AddHost (h : APIHandler) (inPath value : Str) : Outcome Unit × APIHandler :=
  match deriveKey inPath with
  | none => (.fault, h)
  | some key =>
    if value = [] ∨ inPath = [] then (.error .addHostEmpty, h)
    else
      match h.get key with
      | none => (.error .addHostNoKey, h)
      | some _ =>
        (.ok (), h.modify key (fun p =>
          { p with HostsList := p.HostsList ++ [NewProxyValue value] }))

/-- `CheckAndCreateUrl` (proxy.go 85-103) on the request path `r.URL.Path`:
the pair (host, path) and the registry, in which the matched route carries
what `CreatPath` and the balancer wrote. -/
def CheckAndCreateUrl (handler : APIHandler) (order : MapOrder) (path : Str) :
    Outcome (Str × Str) × APIHandler :=
  match MatchRouter handler order path with
  | .error e => (.error e, handler)
  | .fault => (.fault, handler)
  | .ok (key, p) =>
    match CreatPath p path with
    | (.error e, p1) => (.error e, handler.modify key (fun _ => p1))
    | (.fault, p1) => (.fault, handler.modify key (fun _ => p1))
    | (.ok outPath, p1) =>
      match p1.callLoadBalancer with
      | (.error e, p2) => (.error e, handler.modify key (fun _ => p2))
      | (.fault, p2) => (.fault, handler.modify key (fun _ => p2))
      | (.ok outHost, p2) => (.ok (outHost, outPath), handler.modify key (fun _ => p2))

/-- The enumeration that yields the entries as stored. -/
def orderStored : MapOrder := ⟨id, fun l => List.Perm.refl l⟩

/-- The enumeration that yields the entries in reverse. -/
def orderReversed : MapOrder := ⟨List.reverse, fun l => List.reverse_perm l⟩

/-- A registry with the two routes `/a` and `/a/b`, registered in this order. -/
def registryAB : APIHandler :=
  (SetKey (SetKey NewAPIHandler (ascii "/a") (ascii "/x") RoundRobin).2
    (ascii "/a/b") (ascii "/y") RoundRobin).2

/-- The route that `SetKey` stores under a key that was absent, for patterns
that split into `inSlice` and `outSlice` and a factory that returns `lb`. -/
def freshRoute (inSlice outSlice : List Str) (lb : LoadBalancer) : Proxy :=
  { inSlice := inSlice, outSlice := outSlice, MinPathLen := 0, HostsList := [],
    BalancerName := [], LoadBalancer := lb }

/-- The value bound to the key `k` in the mapping an extractor call returned. -/
def lookupParam (r : Outcome Params) (k : Str) : Outcome (Option Str) :=
  match r with
  | .ok m => .ok (m k)
  | .error e => .error e
  | .fault => .fault

/-- The route registered for the input pattern `/svc/:id/item/:item` and the
output pattern `/v2/:item/:id`. -/
def routeSvc : Proxy :=
  freshRoute [ascii "svc", ascii ":id", ascii "item", ascii ":item"]
    [ascii "v2", ascii ":item", ascii ":id"] ⟨0⟩

/-- How a call ended, its value forgotten. -/
def Outcome.kind {α : Type} (r : Outcome α) : Outcome Unit :=
  match r with
  | .ok _ => .ok ()
  | .error e => .error e
  | .fault => .fault

/-- What one turn of the loop of `CreatPath` (proxy.go 116-118) leaves in the
slot of the non-empty segment `value`: `in[value]` when `value` begins with `:`
or `*`, else `value`. -/
def substSegment (params : Params) (value : Str) : Str :=
  if value.head? = some colon ∨ value.head? = some star then params.index value else value

/-- The results of `n` successive calls of the balancer of a route. -/
def selections : Nat → Proxy → List (Outcome Str)
  | 0, _ => []
  | n + 1, p => p.callLoadBalancer.1 :: selections n p.callLoadBalancer.2

/-- A route with three hosts, the second one disabled, and a fresh
round-robin balancer. -/
def routeThreeHosts : Proxy :=
  { freshRoute [ascii "a"] [ascii "x"] (RoundRobin ()) with
    HostsList := [⟨ascii "h1", true⟩, ⟨ascii "h2", false⟩, ⟨ascii "h3", true⟩] }

/-- A route whose only host is disabled, with a fresh round-robin balancer. -/
def routeDisabledHost : Proxy :=
  { freshRoute [ascii "a"] [ascii "x"] (RoundRobin ()) with
    HostsList := [⟨ascii "h1", false⟩] }

/-- The registry with the route `/a`, to which the host `h1` was added. -/
def registryHost : APIHandler :=
  (AddHost (SetKey NewAPIHandler (ascii "/a") (ascii "/x") RoundRobin).2
    (ascii "/a") (ascii "h1")).2

/-- The registry after registering the input pattern `/:id`, whose derived
key is the empty string. -/
def registryEmptyKey : APIHandler :=
  (SetKey NewAPIHandler (ascii "/:id") (ascii "/:id") RoundRobin).2

/-- The registry with the route for `/svc/:id` and `/:id`, to which the host
`h1` was added. -/
def registrySvc : APIHandler :=
  (AddHost (SetKey NewAPIHandler (ascii "/svc/:id") (ascii "/:id") RoundRobin).2
    (ascii "/svc/:id") (ascii "h1")).2

/-- The results of successive calls of the balancer of a route whose host list
is replaced before each call by the next list of `pools`. -/
def selectionsOver (p : Proxy) : List (List OutHost) → List (Outcome Str)
  | [] => []
  | hosts :: pools =>
    ({ p with HostsList := hosts } : Proxy).callLoadBalancer.1 ::
      selectionsOver ({ p with HostsList := hosts } : Proxy).callLoadBalancer.2 pools

/-- A request path, given by its pieces between separators, instantiates an
input pattern, given by its pieces: every piece that begins with `:` is
replaced by a non-empty piece, a last piece that begins with `*` by one or more
pieces, and every other piece is kept. -/
def instantiates : List Str → List Str → Bool
  | [], [] => true
  | [], _ :: _ => false
  | _ :: _, [] => false
  | s :: ps, v :: rs =>
    if s.head? = some star then
      if ps = [] then true else decide (v = s) && instantiates ps rs
    else if s.head? = some colon then decide (v ≠ []) && instantiates ps rs
    else decide (v = s) && instantiates ps rs

/-! ## Lemmas on the registry -/

theorem hasPrefix_iff (s pre : Str) : stringsHasPrefix s pre = true ↔ pre <+: s := by
  simp [stringsHasPrefix]

theorem get_eq_of_mem (h : APIHandler) (hwf : h.WF) (key : Str) (p : Proxy)
    (hmem : (key, p) ∈ h.Proxies) : h.get key = some p := by
  obtain ⟨l⟩ := h
  simp only [APIHandler.WF, APIHandler.get] at *
  induction l with
  | nil => simp at hmem
  | cons kv l ih =>
    simp only [List.map_cons, List.nodup_cons] at hwf
    rcases List.mem_cons.1 hmem with heq | hin
    · subst heq; simp
    · have hne : kv.1 ≠ key := by
        intro hk
        exact hwf.1 (hk ▸ List.mem_map_of_mem Prod.fst hin)
      simp [List.find?_cons, hne, ih hwf.2 hin]

theorem mem_of_get_eq (h : APIHandler) (key : Str) (p : Proxy)
    (hget : h.get key = some p) : (key, p) ∈ h.Proxies := by
  simp only [APIHandler.get, Option.map_eq_some'] at hget
  obtain ⟨kv, hfind, hp⟩ := hget
  have h1 := List.find?_some hfind
  have h2 := List.mem_of_find?_eq_some hfind
  simp only [decide_eq_true_eq] at h1
  obtain ⟨k, q⟩ := kv
  simp only at h1 hp
  subst h1; subst hp
  exact h2

theorem mem_enum (order : MapOrder) (l : List (Str × Proxy)) (kv : Str × Proxy) :
    kv ∈ order.enum l ↔ kv ∈ l := (order.perm l).mem_iff

theorem get_eq_none_iff (h : APIHandler) (key : Str) :
    h.get key = none ↔ key ∉ h.Proxies.map Prod.fst := by
  obtain ⟨l⟩ := h
  simp only [APIHandler.get, Option.map_eq_none', List.find?_eq_none, List.mem_map, not_exists,
    not_and, decide_eq_true_eq]

/-- The empty registry has distinct keys. -/
theorem WF_NewAPIHandler : NewAPIHandler.WF := by
  simp [APIHandler.WF, NewAPIHandler]

/-- Writing through a stored pointer keeps the keys distinct. -/
theorem WF_modify (h : APIHandler) (key : Str) (f : Proxy → Proxy) (hwf : h.WF) :
    (h.modify key f).WF := by
  obtain ⟨l⟩ := h
  simp only [APIHandler.WF, APIHandler.modify, List.map_map] at *
  have : (Prod.fst ∘ fun kv : Str × Proxy => if kv.1 = key then (kv.1, f kv.2) else kv) =
      Prod.fst := by
    funext kv
    by_cases hk : kv.1 = key <;> simp [hk]
  rw [this]
  exact hwf

/-- Storing a route under an absent key keeps the keys distinct. -/
theorem WF_insertNew (h : APIHandler) (key : Str) (p : Proxy) (hwf : h.WF)
    (hnone : h.get key = none) : (h.insertNew key p).WF := by
  have hnot := (get_eq_none_iff h key).1 hnone
  obtain ⟨l⟩ := h
  simp only [APIHandler.WF, APIHandler.insertNew, List.map_append, List.map_cons, List.map_nil]
    at *
  rw [List.nodup_append]
  refine ⟨hwf, List.nodup_singleton key, ?_⟩
  intro k hk1 hk2
  rw [List.mem_singleton] at hk2
  exact hnot (hk2 ▸ hk1)

/-- Deleting a key keeps the keys distinct. -/
theorem WF_delete (h : APIHandler) (key : Str) (hwf : h.WF) : (h.delete key).WF := by
  obtain ⟨l⟩ := h
  simp only [APIHandler.WF, APIHandler.delete] at *
  exact (List.Sublist.map Prod.fst (List.filter_sublist l)).nodup hwf

/-- `SetKey` keeps the keys of the registry distinct. -/
theorem WF_SetKey (h : APIHandler) (inPath out : Str) (factory : LoadBalancerFactory)
    (hwf : h.WF) : (SetKey h inPath out factory).2.WF := by
  unfold SetKey
  cases deriveKey inPath with
  | none => exact hwf
  | some key =>
    simp only
    cases SplitUrl inPath with
    | error e => exact hwf
    | fault => exact hwf
    | ok inSlice =>
      simp only
      cases SplitUrl out with
      | error e => exact hwf
      | fault => exact hwf
      | ok outSlice =>
        simp only
        cases hg : h.get key with
        | none => exact WF_insertNew h key _ hwf hg
        | some q => exact WF_modify h key _ hwf

/-- `AddHost` keeps the keys of the registry distinct. -/
theorem WF_AddHost (h : APIHandler) (inPath value : Str) (hwf : h.WF) :
    (AddHost h inPath value).2.WF := by
  unfold AddHost
  cases deriveKey inPath with
  | none => exact hwf
  | some key =>
    simp only
    split
    · exact hwf
    · cases hg : h.get key with
      | none => exact hwf
      | some q => exact WF_modify h key _ hwf

/-- `DeleteKey` keeps the keys of the registry distinct. -/
theorem WF_DeleteKey (h : APIHandler) (key : Str) (hwf : h.WF) : (DeleteKey h key).2.WF := by
  unfold DeleteKey
  cases hg : h.get key with
  | none => exact hwf
  | some q => exact WF_delete h key hwf

/-! ## MatchRouter -/

/-- C2: MatchRouter returns an error exactly when no registered key is a
prefix of the request path (it never faults), and whenever it returns a route,
that route is an entry of the registry, stored under the returned key, and the
key is a prefix of the path; this holds for every enumeration order of the
map. -/
theorem MatchRouter_error_iff (handler : APIHandler) (order : MapOrder) (path : Str) :
    ((∃ e, MatchRouter handler order path = .error e) ↔
        ∀ kv ∈ handler.Proxies, ¬ kv.1 <+: path) ∧
    MatchRouter handler order path ≠ .fault ∧
    (∀ key p, MatchRouter handler order path = .ok (key, p) →
        (key, p) ∈ handler.Proxies ∧ key <+: path ∧
        (handler.WF → handler.get key = some p)) := by
  unfold MatchRouter
  cases hf : (order.enum handler.Proxies).find? (fun kv => stringsHasPrefix path kv.1) with
  | none =>
    refine ⟨⟨fun _ kv hkv hpre => ?_, fun _ => ⟨_, rfl⟩⟩, by simp, by simp⟩
    rw [List.find?_eq_none] at hf
    exact hf kv ((mem_enum order _ kv).2 hkv) ((hasPrefix_iff _ _).2 hpre)
  | some kv =>
    have h1 := List.find?_some hf
    have h2 := (mem_enum order _ kv).1 (List.mem_of_find?_eq_some hf)
    refine ⟨⟨fun ⟨e, he⟩ => by simp at he, fun hall => ?_⟩, by simp, ?_⟩
    · exact absurd ((hasPrefix_iff _ _).1 h1) (hall kv h2)
    · intro key p heq
      simp only [Outcome.ok.injEq] at heq
      subst heq
      exact ⟨h2, (hasPrefix_iff _ _).1 h1, fun hwf => get_eq_of_mem handler hwf _ _ h2⟩

/-- C2 at the registry with routes `/a` and `/a/b`: no registered key is a
prefix of `/b`, so `/b` ends in an error; and the route returned for `/a/b/c`
in the stored order is the entry under `/a`, a prefix of the path. -/
theorem MatchRouter_error_iff_witness :
    (∃ e, MatchRouter registryAB orderStored (ascii "/b") = .error e) ∧
    (ascii "/a", freshRoute [ascii "a"] [ascii "x"] ⟨0⟩) ∈ registryAB.Proxies ∧
    ascii "/a" <+: ascii "/a/b/c" ∧
    registryAB.get (ascii "/a") = some (freshRoute [ascii "a"] [ascii "x"] ⟨0⟩) :=
  ⟨(MatchRouter_error_iff registryAB orderStored (ascii "/b")).1.2 (by decide),
   ((MatchRouter_error_iff registryAB orderStored (ascii "/a/b/c")).2.2 (ascii "/a")
      (freshRoute [ascii "a"] [ascii "x"] ⟨0⟩) (by decide)).1,
   ((MatchRouter_error_iff registryAB orderStored (ascii "/a/b/c")).2.2 (ascii "/a")
      (freshRoute [ascii "a"] [ascii "x"] ⟨0⟩) (by decide)).2.1,
   ((MatchRouter_error_iff registryAB orderStored (ascii "/a/b/c")).2.2 (ascii "/a")
      (freshRoute [ascii "a"] [ascii "x"] ⟨0⟩) (by decide)).2.2 (by decide)⟩

/-- C1 (as stated, refuted): with routes under `/a` and `/a/b`, the path
`/a/b/c` resolves to the `/a` route when the map is enumerated in one order and
to the `/a/b` route in the other, although `/a/b` is the longest registered
prefix in both. -/
theorem MatchRouter_not_longest_prefix :
    MatchRouter registryAB orderStored (ascii "/a/b/c") =
      .ok (ascii "/a", freshRoute [ascii "a"] [ascii "x"] ⟨0⟩) ∧
    MatchRouter registryAB orderReversed (ascii "/a/b/c") =
      .ok (ascii "/a/b", freshRoute [ascii "a", ascii "b"] [ascii "y"] ⟨0⟩) ∧
    registryAB.get (ascii "/a/b") =
      some (freshRoute [ascii "a", ascii "b"] [ascii "y"] ⟨0⟩) ∧
    ascii "/a/b" <+: ascii "/a/b/c" ∧
    (ascii "/a").length < (ascii "/a/b").length := by
  decide

/-- C1 (amended): when exactly one registered key is a prefix of the path,
MatchRouter returns the route stored under that key, for every enumeration
order of the map, and that key is the longest registered key that is a prefix
of the path. -/
theorem MatchRouter_unique_prefix (handler : APIHandler) (order : MapOrder) (path key : Str)
    (p : Proxy) (hwf : handler.WF) (hget : handler.get key = some p) (hpre : key <+: path)
    (huniq : ∀ kv ∈ handler.Proxies, kv.1 <+: path → kv.1 = key) :
    MatchRouter handler order path = .ok (key, p) ∧
    ∀ kv ∈ handler.Proxies, kv.1 <+: path → kv.1.length ≤ key.length := by
  refine ⟨?_, fun kv hkv hp => by rw [huniq kv hkv hp]⟩
  have hmem := mem_of_get_eq handler key p hget
  unfold MatchRouter
  cases hf : (order.enum handler.Proxies).find? (fun kv => stringsHasPrefix path kv.1) with
  | none =>
    rw [List.find?_eq_none] at hf
    exact absurd ((hasPrefix_iff _ _).2 hpre) (hf _ ((mem_enum order _ _).2 hmem))
  | some kv =>
    have h0 : stringsHasPrefix path kv.1 = true :=
      @List.find?_some _ (fun kv : Str × Proxy => stringsHasPrefix path kv.1) _ _ hf
    have h1 := (hasPrefix_iff _ _).1 h0
    have h2 := (mem_enum order _ kv).1 (List.mem_of_find?_eq_some hf)
    have hk := huniq kv h2 h1
    obtain ⟨k, q⟩ := kv
    simp only at hk
    subst hk
    have := get_eq_of_mem handler hwf _ _ h2
    rw [hget] at this
    simp only [Option.some.injEq] at this
    rw [this]

/-- C1 (amended) at the registry with routes `/a` and `/a/b`: the path `/a/c`
has the single registered prefix `/a` and resolves to its route in the reversed
enumeration as well. -/
theorem MatchRouter_unique_prefix_witness :
    MatchRouter registryAB orderReversed (ascii "/a/c") =
      .ok (ascii "/a", freshRoute [ascii "a"] [ascii "x"] ⟨0⟩) ∧
    ∀ kv ∈ registryAB.Proxies, kv.1 <+: ascii "/a/c" → kv.1.length ≤ (ascii "/a").length :=
  MatchRouter_unique_prefix registryAB orderReversed (ascii "/a/c") (ascii "/a")
    (freshRoute [ascii "a"] [ascii "x"] ⟨0⟩) (by decide) (by decide) (by decide) (by decide)

/-! ## Path templates -/

/-- C3 (the code at the failing inputs): the route registered for
`/svc/:id/item/:item` and `/v2/:item/:id` rewrites `/svc/42/item/99` to
`/v2/99/42`, but it rewrites the same request with a trailing separator,
`/svc/42/item/99/`, to `/v2/9/42`; and the route registered for `/svc/:id` and
`/:id` faults on the request `/svc//x`, whose captured segment is empty. -/
theorem CreatPath_roundtrip_failing_inputs :
    (SetKey NewAPIHandler (ascii "/svc/:id/item/:item") (ascii "/v2/:item/:id") RoundRobin).2.get
        (ascii "/svc") = some routeSvc ∧
    (CreatPath routeSvc (ascii "/svc/42/item/99")).1 = .ok (ascii "/v2/99/42") ∧
    (CreatPath routeSvc (ascii "/svc/42/item/99/")).1 = .ok (ascii "/v2/9/42") ∧
    (SetKey NewAPIHandler (ascii "/svc/:id") (ascii "/:id") RoundRobin).2.get (ascii "/svc") =
        some (freshRoute [ascii "svc", ascii ":id"] [ascii ":id"] ⟨0⟩) ∧
    SplitUrl (ascii "/svc//x") = .ok [ascii "svc", ascii "", ascii "x"] ∧
    (CreatPath (freshRoute [ascii "svc", ascii ":id"] [ascii ":id"] ⟨0⟩) (ascii "/svc//x")).1 =
        .fault := by
  decide

theorem stringsJoin_slash_cons (a : Str) (t : List Str) :
    stringsJoin ((slash :: a) :: t) = slash :: stringsJoin (a :: t) := by
  cases t <;> simp [stringsJoin]

theorem drop_of_getElem? (req : List Str) (seg : Str) :
    ∀ i : Nat, req[i]? = some seg → req.drop i = seg :: req.drop (i + 1) := by
  induction req with
  | nil => intro i h; simp at h
  | cons a t ih =>
    intro i h
    cases i with
    | zero => simp at h; simp [h]
    | succ n => simp at h; simpa using ih n h

theorem set_drop_of_getElem? (req : List Str) (seg x : Str) :
    ∀ i : Nat, req[i]? = some seg → (req.set i x).drop i = x :: req.drop (i + 1) := by
  induction req with
  | nil => intro i h; simp at h
  | cons a t ih =>
    intro i h
    cases i with
    | zero => simp
    | succ n => simp at h; simpa using ih n h

theorem wildcard_value (req : List Str) (seg : Str) (i : Nat) (h : req[i]? = some seg) :
    stringsJoin ((req.set i (slash :: seg)).drop i) = slash :: stringsJoin (req.drop i) := by
  rw [set_drop_of_getElem? req seg _ i h, drop_of_getElem? req seg i h, stringsJoin_slash_cons]

theorem getElem?_of_lt (req : List Str) (i : Nat) (h : i < req.length) :
    ∃ seg, req[i]? = some seg := ⟨req[i], List.getElem?_eq_getElem h⟩

theorem guard_false (req : List Str) (i : Nat) (h : i < req.length) :
    ¬ ((i : Int) > (req.length : Int) - 1) := by omega

theorem guard_true (req : List Str) (i : Nat) (h : req.length ≤ i) :
    (i : Int) > (req.length : Int) - 1 := by omega

/-- One turn of the extractor loop on a non-empty pattern segment at a
position the request has. -/
theorem inParamsLoop_step (req : List Str) (i : Nat) (pattern : Str) (rest : List Str)
    (ret : Params) (c : UInt8) (seg : Str) (hc : pattern.head? = some c)
    (hseg : req[i]? = some seg) :
    inParamsLoop req i (pattern :: rest) ret =
      if c = star then
        .ok ((if c = colon then ret.set pattern seg else ret).set pattern
          (slash :: stringsJoin (req.drop i)))
      else inParamsLoop req (i + 1) rest (if c = colon then ret.set pattern seg else ret) := by
  have hlt : i < req.length := by
    by_contra hge
    rw [List.getElem?_eq_none (Nat.le_of_not_lt hge)] at hseg
    exact Option.noConfusion hseg
  rw [inParamsLoop, if_neg (guard_false req i hlt), hc, hseg]
  simp only [wildcard_value req seg i hseg]

theorem Params.set_ne_none (ret : Params) (k v x : Str) (h : ret.set k v x ≠ none) :
    ret x ≠ none ∨ x = k := by
  unfold Params.set at h
  by_cases hx : x = k
  · exact Or.inr hx
  · rw [if_neg hx] at h; exact Or.inl h

/-- The extractor loop on a pattern `pre ++ seg :: post` whose segments `pre`
are non-empty and no wildcard, `seg` being a wildcard at a position the request
has: the loop over `pre` succeeds, and the whole loop returns its mapping with
`seg` bound to the rest of the request. -/
theorem inParamsLoop_wildcard (req : List Str) (seg : Str) (post : List Str)
    (hstar : seg.head? = some star) :
    ∀ (pre : List Str) (i0 : Nat) (ret : Params),
      (∀ s ∈ pre, s ≠ [] ∧ s.head? ≠ some star) → i0 + pre.length < req.length →
      ∃ r, inParamsLoop req i0 pre ret = .ok r ∧
        (∀ k, r k ≠ none → ret k ≠ none ∨ k ∈ pre) ∧
        inParamsLoop req i0 (pre ++ seg :: post) ret =
          .ok (r.set seg (slash :: stringsJoin (req.drop (i0 + pre.length)))) := by
  intro pre
  induction pre with
  | nil =>
    intro i0 ret _ hlen
    simp only [List.length_nil, Nat.add_zero] at hlen
    obtain ⟨sg, hsg⟩ := getElem?_of_lt req i0 hlen
    refine ⟨ret, by simp [inParamsLoop], fun k hk => Or.inl hk, ?_⟩
    rw [List.nil_append, inParamsLoop_step req i0 seg post ret star sg hstar hsg]
    have h1 : ¬ (star = colon) := by decide
    simp [h1]
  | cons a pre ih =>
    intro i0 ret hpre hlen
    simp only [List.length_cons] at hlen
    have ha := hpre a (List.mem_cons_self a pre)
    obtain ⟨c, hc⟩ : ∃ c, a.head? = some c := by
      cases a with
      | nil => exact absurd rfl ha.1
      | cons c t => exact ⟨c, rfl⟩
    have hcs : ¬ (c = star) := fun h => ha.2 (h ▸ hc)
    obtain ⟨sg, hsg⟩ := getElem?_of_lt req i0 (by omega)
    obtain ⟨r, hr1, hr2, hr3⟩ :=
      ih (i0 + 1) (if c = colon then ret.set a sg else ret)
        (fun s hs => hpre s (List.mem_cons_of_mem a hs)) (by omega)
    refine ⟨r, ?_, ?_, ?_⟩
    · rw [inParamsLoop_step req i0 a pre ret c sg hc hsg, if_neg hcs]; exact hr1
    · intro k hk
      rcases hr2 k hk with h1 | h1
      · by_cases hcol : c = colon
        · rw [if_pos hcol] at h1
          rcases Params.set_ne_none ret a sg k h1 with h2 | h2
          · exact Or.inl h2
          · exact Or.inr (h2 ▸ List.mem_cons_self a pre)
        · rw [if_neg hcol] at h1; exact Or.inl h1
      · exact Or.inr (List.mem_cons_of_mem a h1)
    · rw [List.cons_append, inParamsLoop_step req i0 a (pre ++ seg :: post) ret c sg hc hsg,
        if_neg hcs, hr3]
      have : i0 + 1 + pre.length = i0 + (a :: pre).length := by
        simp only [List.length_cons]; omega
      rw [this]

/-- C4 (as stated, refuted): for the pattern `/files/*rest` and the request
`/files/a/b/c` nothing is bound under `rest`; the value `/a/b/c` is bound under
the whole segment `*rest`.  In the pattern `/*a/*b` the segment at position 1
is a wildcard, and nothing is bound for it, the loop having stopped at `*a`.
With the pattern `//*rest`, whose first segment is empty, the extractor
faults. -/
theorem inParamsFunc_wildcard_key_is_segment :
    SplitUrl (ascii "/files/*rest") = .ok [ascii "files", ascii "*rest"] ∧
    lookupParam (inParamsFunc [ascii "files", ascii "*rest"] (ascii "/files/a/b/c"))
        (ascii "rest") = .ok none ∧
    lookupParam (inParamsFunc [ascii "files", ascii "*rest"] (ascii "/files/a/b/c"))
        (ascii "*rest") = .ok (some (ascii "/a/b/c")) ∧
    SplitUrl (ascii "/*a/*b") = .ok [ascii "*a", ascii "*b"] ∧
    lookupParam (inParamsFunc [ascii "*a", ascii "*b"] (ascii "/x/y")) (ascii "*b") =
        .ok none ∧
    SplitUrl (ascii "//*rest") = .ok [ascii "", ascii "*rest"] ∧
    lookupParam (inParamsFunc [ascii "", ascii "*rest"] (ascii "/x/y")) (ascii "*rest") =
        .fault := by
  decide

/-- C4 (amended): let the segment `seg` at position `i` of the input pattern
be its first wildcard, every segment before it being non-empty, and let the
request path split into more than `i` segments.  Then the extractor succeeds,
binds under the key `seg` (the whole segment, marker included) the string
`"/"` followed by the request segments from position `i` onward joined by
`"/"`, and binds nothing for the pattern segments after the wildcard: the
mapping is the one extracted with the pattern cut after the wildcard, and all
of its keys are segments at positions up to `i`. -/
theorem inParamsFunc_wildcard (inSlice : List Str) (path : Str) (req : List Str) (i : Nat)
    (seg : Str) (hreq : SplitUrl path = .ok req) (hseg : inSlice[i]? = some seg)
    (hstar : seg.head? = some star)
    (hbefore : ∀ s ∈ inSlice.take i, s ≠ [] ∧ s.head? ≠ some star)
    (hlen : i < req.length) :
    ∃ params, inParamsFunc inSlice path = .ok params ∧
      params seg = some (slash :: stringsJoin (req.drop i)) ∧
      inParamsFunc (inSlice.take (i + 1)) path = .ok params ∧
      ∀ k, params k ≠ none → k ∈ inSlice.take (i + 1) := by
  have hi : i < inSlice.length := by
    by_contra hge
    rw [List.getElem?_eq_none (Nat.le_of_not_lt hge)] at hseg
    exact Option.noConfusion hseg
  have hsplit : inSlice = inSlice.take i ++ seg :: inSlice.drop (i + 1) := by
    have h1 := drop_of_getElem? inSlice seg i hseg
    rw [← h1, List.take_append_drop]
  have htake : inSlice.take (i + 1) = inSlice.take i ++ seg :: [] := by
    rw [List.take_succ, hseg]; rfl
  have hlen1 : (inSlice.take i).length = i := by
    rw [List.length_take]; omega
  obtain ⟨r, _, hr2, hr3⟩ :=
    inParamsLoop_wildcard req seg (inSlice.drop (i + 1)) hstar (inSlice.take i) 0 Params.empty
      hbefore (by omega)
  obtain ⟨r1, hr11, _, hr13⟩ :=
    inParamsLoop_wildcard req seg [] hstar (inSlice.take i) 0 Params.empty hbefore (by omega)
  simp only [hlen1, Nat.zero_add] at hr3 hr13
  have hrr : r1 = r := by
    have := hr11.symm.trans ‹inParamsLoop req 0 (inSlice.take i) Params.empty = .ok r›
    simpa using this
  subst hrr
  refine ⟨r1.set seg (slash :: stringsJoin (req.drop i)), ?_, ?_, ?_, ?_⟩
  · unfold inParamsFunc; rw [hreq]; simp only; rw [hsplit]; exact hr3
  · simp [Params.set]
  · unfold inParamsFunc; rw [hreq]; simp only; rw [htake]; exact hr13
  · intro k hk
    rw [htake]
    rcases Params.set_ne_none r1 seg _ k hk with h1 | h1
    · rcases hr2 k h1 with h2 | h2
      · exact absurd rfl h2
      · exact List.mem_append_left _ h2
    · exact List.mem_append_right _ (h1 ▸ List.mem_cons_self seg [])

/-- C4 (amended) at the pattern `/files/*rest` and the request `/files/a/b/c`:
the key `*rest` is bound to `/a/b/c`. -/
theorem inParamsFunc_wildcard_witness :
    ∃ params, inParamsFunc [ascii "files", ascii "*rest"] (ascii "/files/a/b/c") = .ok params ∧
      params (ascii "*rest") = some (ascii "/a/b/c") ∧
      inParamsFunc ([ascii "files", ascii "*rest"].take (1 + 1)) (ascii "/files/a/b/c") =
        .ok params ∧
      ∀ k, params k ≠ none → k ∈ [ascii "files", ascii "*rest"].take (1 + 1) :=
  inParamsFunc_wildcard [ascii "files", ascii "*rest"] (ascii "/files/a/b/c")
    [ascii "files", ascii "a", ascii "b", ascii "c"] 1 (ascii "*rest")
    (by decide) (by decide) (by decide) (by decide) (by decide)

/-- The extractor loop on a pattern of non-empty segments ends with the error
"inpath is too short" exactly when a segment with no wildcard before it sits at
a position the request does not have; otherwise it returns a mapping. -/
theorem inParamsLoop_outcome (req : List Str) :
    ∀ (rest : List Str) (i0 : Nat) (ret : Params), (∀ s ∈ rest, s ≠ []) →
      (inParamsLoop req i0 rest ret = .error .inpathTooShort ↔
        ∃ k, k < rest.length ∧ req.length ≤ i0 + k ∧
          ∀ s ∈ rest.take k, s.head? ≠ some star) ∧
      ((∃ r, inParamsLoop req i0 rest ret = .ok r) ∨
        inParamsLoop req i0 rest ret = .error .inpathTooShort) := by
  intro rest
  induction rest with
  | nil =>
    intro i0 ret _
    refine ⟨⟨fun h => ?_, fun ⟨k, hk, _⟩ => ?_⟩, Or.inl ⟨ret, by simp [inParamsLoop]⟩⟩
    · simp [inParamsLoop] at h
    · simp at hk
  | cons a rest ih =>
    intro i0 ret hne
    obtain ⟨c, hc⟩ : ∃ c, a.head? = some c := by
      cases a with
      | nil => exact absurd rfl (hne [] (List.mem_cons_self _ _))
      | cons c t => exact ⟨c, rfl⟩
    by_cases hlen : req.length ≤ i0
    · have herr : inParamsLoop req i0 (a :: rest) ret = .error .inpathTooShort := by
        rw [inParamsLoop, if_pos (guard_true req i0 hlen)]
      exact ⟨⟨fun _ => ⟨0, by simp, by simpa using hlen, by simp⟩, fun _ => herr⟩, Or.inr herr⟩
    · obtain ⟨sg, hsg⟩ := getElem?_of_lt req i0 (Nat.lt_of_not_le hlen)
      rw [inParamsLoop_step req i0 a rest ret c sg hc hsg]
      by_cases hcs : c = star
      · rw [if_pos hcs]
        refine ⟨⟨fun h => by simp at h, fun ⟨k, _, hk2, hk3⟩ => ?_⟩, Or.inl ⟨_, rfl⟩⟩
        cases k with
        | zero => exact absurd (by simpa using hk2) hlen
        | succ n =>
          exact absurd (hcs ▸ hc) (hk3 a (by simp))
      · rw [if_neg hcs]
        obtain ⟨ih1, ih2⟩ :=
          ih (i0 + 1) (if c = colon then ret.set a sg else ret)
            (fun s hs => hne s (List.mem_cons_of_mem a hs))
        refine ⟨ih1.trans ⟨fun ⟨k, hk1, hk2, hk3⟩ => ⟨k + 1, ?_, ?_, ?_⟩,
          fun ⟨k, hk1, hk2, hk3⟩ => ?_⟩, ih2⟩
        · simpa using hk1
        · omega
        · intro s hs
          rw [List.take_succ_cons] at hs
          rcases List.mem_cons.1 hs with h1 | h1
          · rw [h1, hc]; intro h2; exact hcs (Option.some.inj h2)
          · exact hk3 s h1
        · cases k with
          | zero => exact absurd (by simpa using hk2) hlen
          | succ n =>
            refine ⟨n, by simpa using hk1, by omega, fun s hs => hk3 s ?_⟩
            rw [List.take_succ_cons]
            exact List.mem_cons_of_mem a hs

/-- C6 (as stated, refuted): the pattern `/a/b` has no `:name` segment, and the
extractor still returns the error "inpath is too short" on the request `/a`,
at the literal `b`; and for the pattern `/*w/:id` the request `/x` has no
position 1, where `:id` sits, and the extractor returns a mapping. -/
theorem inParamsFunc_literal_too_short :
    SplitUrl (ascii "/a/b") = .ok [ascii "a", ascii "b"] ∧
    (inParamsFunc [ascii "a", ascii "b"] (ascii "/a")).kind = .error .inpathTooShort ∧
    SplitUrl (ascii "/*w/:id") = .ok [ascii "*w", ascii ":id"] ∧
    (inParamsFunc [ascii "*w", ascii ":id"] (ascii "/x")).kind = .ok () := by
  decide

/-- C6 (amended): for every input pattern whose segments are non-empty and
every request path that splits into segments, the extractor returns an error
exactly when some pattern segment of any kind (literal, `:name` or wildcard)
that has no wildcard before it sits at a position the request path does not
have; that error is "inpath is too short", and the extractor does not fault. -/
theorem inParamsFunc_too_short_iff (inSlice : List Str) (path : Str) (req : List Str)
    (hreq : SplitUrl path = .ok req) (hne : ∀ s ∈ inSlice, s ≠ []) :
    ((∃ e, inParamsFunc inSlice path = .error e) ↔
      ∃ i, i < inSlice.length ∧ req.length ≤ i ∧
        ∀ s ∈ inSlice.take i, s.head? ≠ some star) ∧
    (∀ e, inParamsFunc inSlice path = .error e → e = .inpathTooShort) ∧
    inParamsFunc inSlice path ≠ .fault := by
  obtain ⟨h1, h2⟩ := inParamsLoop_outcome req inSlice 0 Params.empty hne
  simp only [Nat.zero_add] at h1
  have hdef : inParamsFunc inSlice path = inParamsLoop req 0 inSlice Params.empty := by
    unfold inParamsFunc; rw [hreq]
  rw [hdef]
  refine ⟨⟨fun ⟨e, he⟩ => h1.1 ?_, fun hi => ⟨_, h1.2 hi⟩⟩, fun e he => ?_, fun hf => ?_⟩
  · rcases h2 with ⟨r, hr⟩ | herr
    · rw [hr] at he; exact Outcome.noConfusion he
    · exact herr
  · rcases h2 with ⟨r, hr⟩ | herr
    · rw [hr] at he; exact Outcome.noConfusion he
    · rw [herr] at he; exact (Outcome.error.inj he).symm
  · rcases h2 with ⟨r, hr⟩ | herr
    · rw [hr] at hf; exact Outcome.noConfusion hf
    · rw [herr] at hf; exact Outcome.noConfusion hf

/-- C6 (amended) at the pattern `/a/b` and the request `/a`: the literal `b`
sits at position 1, which the request does not have. -/
theorem inParamsFunc_too_short_iff_witness :
    ((∃ e, inParamsFunc [ascii "a", ascii "b"] (ascii "/a") = .error e) ↔
      ∃ i, i < [ascii "a", ascii "b"].length ∧ [ascii "a"].length ≤ i ∧
        ∀ s ∈ [ascii "a", ascii "b"].take i, s.head? ≠ some star) ∧
    (∀ e, inParamsFunc [ascii "a", ascii "b"] (ascii "/a") = .error e → e = .inpathTooShort) ∧
    inParamsFunc [ascii "a", ascii "b"] (ascii "/a") ≠ .fault :=
  inParamsFunc_too_short_iff [ascii "a", ascii "b"] (ascii "/a") [ascii "a"]
    (by decide) (by decide)

/-- On output segments that are all non-empty the loop of `CreatPath` runs to
its end and replaces every slot by `substSegment`. -/
theorem substLoop_of_nonempty (params : Params) :
    ∀ out : List Str, (∀ s ∈ out, s ≠ []) →
      substLoop params out = (true, out.map (substSegment params)) := by
  intro out
  induction out with
  | nil => intro _; rfl
  | cons a t ih =>
    intro hne
    have iht := ih (fun s hs => hne s (List.mem_cons_of_mem a hs))
    cases a with
    | nil => exact absurd rfl (hne [] (List.mem_cons_self _ _))
    | cons c u =>
      simp only [substLoop, List.head?_cons, iht, List.map_cons, substSegment,
        Option.some.injEq]

/-- `CreatPath` returns an error only when the extractor does. -/
theorem CreatPath_error_only_from_extractor (p : Proxy) (path : Str) (params : Params)
    (hex : inParamsFunc p.inSlice path = .ok params) (e : Err) :
    (CreatPath p path).1 ≠ .error e := by
  unfold CreatPath
  rw [hex]
  simp only
  split
  · simp
  · split
    · simp
    · split <;> simp

/-- The value of `CreatPath` when the extractor returns a mapping, the output
segments are non-empty and the first one is non-empty after replacement. -/
theorem CreatPath_value (p : Proxy) (path : Str) (params : Params)
    (hex : inParamsFunc p.inSlice path = .ok params) (first : Str) (rest : List Str)
    (hmap : p.outSlice.map (substSegment params) = first :: rest)
    (hne : ∀ s ∈ p.outSlice, s ≠ []) (hfirst : first ≠ []) :
    (CreatPath p path).1 =
      .ok (stringsJoin
        ((if first.head? = some slash then first else slash :: first) :: rest)) := by
  unfold CreatPath
  rw [hex]
  simp only [substLoop_of_nonempty params p.outSlice hne, hmap]
  cases first with
  | nil => exact absurd rfl hfirst
  | cons c t =>
    by_cases hc : c = slash
    · simp [hc]
    · simp [hc]

/-- C5 (as stated, refuted): for the route with input pattern `/svc/:id` and
output pattern `/v2/:name`, the request `/svc/42` binds nothing under `:name`,
and `CreatPath` returns the path `/v2/`, with the empty string in the place of
`:name`, and no error. -/
theorem CreatPath_absent_key_substitutes_empty :
    (SetKey NewAPIHandler (ascii "/svc/:id") (ascii "/v2/:name") RoundRobin).2.get
      (ascii "/svc") = some (freshRoute [ascii "svc", ascii ":id"] [ascii "v2", ascii ":name"] ⟨0⟩) ∧
    lookupParam (inParamsFunc [ascii "svc", ascii ":id"] (ascii "/svc/42")) (ascii ":name") =
      .ok none ∧
    (CreatPath (freshRoute [ascii "svc", ascii ":id"] [ascii "v2", ascii ":name"] ⟨0⟩)
      (ascii "/svc/42")).1 = .ok (ascii "/v2/") := by
  decide

/-- C5 (amended): for every route and request path on which the extractor
returns a mapping, `CreatPath` returns no error; a placeholder segment (first
character `:` or `*`) that is not a key of the mapping is replaced by the empty
string; and when the output segments are non-empty and the first one is
non-empty after the replacement, `CreatPath` returns the replaced segments
joined by `"/"`, with a `"/"` in front unless the first one begins with
one. -/
theorem CreatPath_absent_key (p : Proxy) (path : Str) (params : Params)
    (hex : inParamsFunc p.inSlice path = .ok params) :
    (∀ e, (CreatPath p path).1 ≠ .error e) ∧
    (∀ seg, (seg.head? = some colon ∨ seg.head? = some star) → params seg = none →
      substSegment params seg = []) ∧
    (∀ first rest, p.outSlice.map (substSegment params) = first :: rest →
      (∀ s ∈ p.outSlice, s ≠ []) → first ≠ [] →
      (CreatPath p path).1 =
        .ok (stringsJoin
          ((if first.head? = some slash then first else slash :: first) :: rest))) := by
  refine ⟨CreatPath_error_only_from_extractor p path params hex, ?_, ?_⟩
  · intro seg hseg hnone
    simp [substSegment, hseg, Params.index, hnone]
  · intro first rest hmap hne hfirst
    exact CreatPath_value p path params hex first rest hmap hne hfirst

/-- C5 (amended) at the route with input pattern `/svc/:id` and output pattern
`/v2/:name/x` and the request `/svc/42`: the extractor binds `:id` only, and
`CreatPath` returns `/v2//x`, the empty string standing in the place of
`:name`. -/
theorem CreatPath_absent_key_witness :
    inParamsFunc (freshRoute [ascii "svc", ascii ":id"]
        [ascii "v2", ascii ":name", ascii "x"] ⟨0⟩).inSlice (ascii "/svc/42") =
      .ok (Params.empty.set (ascii ":id") (ascii "42")) ∧
    (CreatPath (freshRoute [ascii "svc", ascii ":id"]
        [ascii "v2", ascii ":name", ascii "x"] ⟨0⟩) (ascii "/svc/42")).1 =
      .ok (ascii "/v2//x") :=
  ⟨by rfl,
   (CreatPath_absent_key
      (freshRoute [ascii "svc", ascii ":id"] [ascii "v2", ascii ":name", ascii "x"] ⟨0⟩)
      (ascii "/svc/42") (Params.empty.set (ascii ":id") (ascii "42")) (by rfl)).2.2
      (ascii "v2") [ascii "", ascii "x"] (by decide) (by decide) (by decide)⟩

/-- The pieces `strings.Split` returns contain no separator. -/
theorem stringsSplit_no_slash : ∀ (u : Str), ∀ s ∈ stringsSplit u, slash ∉ s := by
  intro u
  induction u with
  | nil => intro s hs; simp [stringsSplit] at hs; simp [hs]
  | cons c cs ih =>
    intro s hs
    by_cases hc : c = slash
    · rw [stringsSplit, if_pos hc] at hs
      rcases List.mem_cons.1 hs with h1 | h1
      · simp [h1]
      · exact ih s h1
    · rw [stringsSplit, if_neg hc] at hs
      cases hsp : stringsSplit cs with
      | nil => rw [hsp] at hs; simp at hs; simp [hs, Ne.symm hc]
      | cons w ws =>
        rw [hsp] at hs ih
        rcases List.mem_cons.1 hs with h1 | h1
        · rw [h1]
          intro hmem
          rcases List.mem_cons.1 hmem with h2 | h2
          · exact hc h2.symm
          · exact ih w (List.mem_cons_self w ws) h2
        · exact ih s (List.mem_cons_of_mem w h1)

/-- The segments `SplitUrl` returns contain no separator. -/
theorem SplitUrl_no_slash (url : Str) (segs : List Str) (h : SplitUrl url = .ok segs) :
    ∀ s ∈ segs, slash ∉ s := by
  unfold SplitUrl at h
  simp only at h
  split at h
  · simp at h
  · split at h
    · simp at h
    · rename_i url1 _
      have hno := stringsSplit_no_slash url1
      split at h
      · simp at h
      · rename_i s0 rest hsp
        rw [hsp] at hno
        split at h
        · simp only [Outcome.ok.injEq] at h
          subst h
          exact fun s hs => hno s (List.mem_cons_of_mem s0 hs)
        · simp only [Outcome.ok.injEq] at h
          subst h
          exact hno

/-- The extractor loop on a pattern without wildcard, all of whose segments are
non-empty and have a request position: it returns a mapping that binds every
`:name` segment to the request segment at the last position where the pattern
has that segment, and leaves the keys that are no pattern segment as they
were. -/
theorem inParamsLoop_captures (req : List Str) :
    ∀ (rest : List Str) (i0 : Nat) (ret : Params),
      (∀ s ∈ rest, s ≠ [] ∧ s.head? ≠ some star) → i0 + rest.length ≤ req.length →
      ∃ r, inParamsLoop req i0 rest ret = .ok r ∧
        (∀ k, k ∉ rest → r k = ret k) ∧
        (∀ j s, rest[j]? = some s → s.head? = some colon → s ∉ rest.drop (j + 1) →
          r s = req[i0 + j]?) := by
  intro rest
  induction rest with
  | nil =>
    intro i0 ret _ _
    exact ⟨ret, by simp [inParamsLoop], fun _ _ => rfl, fun j s hj => by simp at hj⟩
  | cons a rest ih =>
    intro i0 ret hseg hlen
    simp only [List.length_cons] at hlen
    have ha := hseg a (List.mem_cons_self a rest)
    obtain ⟨c, hc⟩ : ∃ c, a.head? = some c := by
      cases a with
      | nil => exact absurd rfl ha.1
      | cons c t => exact ⟨c, rfl⟩
    have hcs : ¬ (c = star) := fun h => ha.2 (h ▸ hc)
    obtain ⟨sg, hsg⟩ := getElem?_of_lt req i0 (by omega)
    obtain ⟨r, hr1, hr2, hr3⟩ :=
      ih (i0 + 1) (if c = colon then ret.set a sg else ret)
        (fun s hs => hseg s (List.mem_cons_of_mem a hs)) (by omega)
    refine ⟨r, ?_, ?_, ?_⟩
    · rw [inParamsLoop_step req i0 a rest ret c sg hc hsg, if_neg hcs]; exact hr1
    · intro k hk
      have hka : k ≠ a := fun h => hk (h ▸ List.mem_cons_self a rest)
      rw [hr2 k (fun h => hk (List.mem_cons_of_mem a h))]
      by_cases hcol : c = colon
      · simp [hcol, Params.set, hka]
      · simp [hcol]
    · intro j s hj hcolon hlast
      cases j with
      | zero =>
        simp only [List.getElem?_cons_zero, Option.some.injEq] at hj
        subst hj
        simp only [Nat.zero_add, List.drop_succ_cons, List.drop_zero] at hlast
        rw [hr2 a hlast]
        have hcol : c = colon := Option.some.inj (hc.symm.trans hcolon)
        simp [hcol, Params.set, hsg]
      | succ n =>
        simp only [List.getElem?_cons_succ] at hj
        simp only [List.drop_succ_cons] at hlast
        have := hr3 n s hj hcolon hlast
        rw [this]
        congr 1
        omega

/-- The round trip on well-formed input: let the input pattern split into
non-empty segments none of which is a wildcard, the output pattern into
non-empty segments at least one, and the request path into at least as many
segments as the input pattern; let every placeholder of the output pattern be
a segment of the input pattern, `pos` giving the last position where it occurs,
and let the request segment captured for a placeholder at the head of the
output pattern be non-empty.  Then `CreatPath` on the route registered for the
two patterns returns `"/"` followed by the output segments joined by `"/"`,
each placeholder replaced by the request segment at its position. -/
theorem CreatPath_roundtrip (inPath out path : Str) (inSlice outSlice req : List Str)
    (lb : LoadBalancer) (pos : Str → Nat)
    (_hin : SplitUrl inPath = .ok inSlice) (hout : SplitUrl out = .ok outSlice)
    (hreq : SplitUrl path = .ok req)
    (hseg : ∀ s ∈ inSlice, s ≠ [] ∧ s.head? ≠ some star)
    (hlen : inSlice.length ≤ req.length)
    (hne : outSlice ≠ []) (houtne : ∀ s ∈ outSlice, s ≠ [])
    (hpos : ∀ s ∈ outSlice, (s.head? = some colon ∨ s.head? = some star) →
      inSlice[pos s]? = some s ∧ s ∉ inSlice.drop (pos s + 1))
    (hval : ∀ s, outSlice.head? = some s → (s.head? = some colon ∨ s.head? = some star) →
      req.getD (pos s) [] ≠ []) :
    (CreatPath (freshRoute inSlice outSlice lb) path).1 =
      .ok (slash :: stringsJoin (outSlice.map (fun s =>
        if s.head? = some colon ∨ s.head? = some star then req.getD (pos s) [] else s))) := by
  obtain ⟨params, hp1, _, hp3⟩ :=
    inParamsLoop_captures req inSlice 0 Params.empty hseg (by omega)
  have hex : inParamsFunc (freshRoute inSlice outSlice lb).inSlice path = .ok params := by
    simp only [freshRoute, inParamsFunc, hreq]; exact hp1
  have hsub : ∀ s ∈ outSlice, substSegment params s =
      if s.head? = some colon ∨ s.head? = some star then req.getD (pos s) [] else s := by
    intro s hs
    unfold substSegment
    by_cases hph : s.head? = some colon ∨ s.head? = some star
    · rw [if_pos hph, if_pos hph]
      obtain ⟨h1, h2⟩ := hpos s hs hph
      have hcolon : s.head? = some colon := by
        rcases hph with h | h
        · exact h
        · exact absurd h (hseg s (List.getElem?_mem h1)).2
      have := hp3 (pos s) s h1 hcolon h2
      simp only [Nat.zero_add] at this
      simp [Params.index, this, List.getD_eq_getElem?_getD]
    · rw [if_neg hph, if_neg hph]
  have hmap : outSlice.map (substSegment params) = outSlice.map (fun s =>
      if s.head? = some colon ∨ s.head? = some star then req.getD (pos s) [] else s) :=
    List.map_congr_left hsub
  cases houtS : outSlice with
  | nil => exact absurd houtS hne
  | cons first rest =>
    have hfirst_mem : first ∈ outSlice := houtS ▸ List.mem_cons_self first rest
    have hnoslash_req := SplitUrl_no_slash path req hreq
    have hnoslash_out := SplitUrl_no_slash out outSlice hout
    have hfirst_ne : substSegment params first ≠ [] := by
      rw [hsub first hfirst_mem]
      by_cases hph : first.head? = some colon ∨ first.head? = some star
      · rw [if_pos hph]; exact hval first (by rw [houtS]; rfl) hph
      · rw [if_neg hph]; exact houtne first hfirst_mem
    have hfirst_slash : (substSegment params first).head? ≠ some slash := by
      rw [hsub first hfirst_mem]
      by_cases hph : first.head? = some colon ∨ first.head? = some star
      · rw [if_pos hph]
        intro hh
        obtain ⟨h1, _⟩ := hpos first hfirst_mem hph
        have hlt : pos first < req.length := by
          have := (List.getElem?_eq_some_iff.1 h1).1
          omega
        have hmem : req.getD (pos first) [] ∈ req := by
          rw [List.getD_eq_getElem?_getD, List.getElem?_eq_getElem hlt]
          exact List.getElem_mem hlt
        exact hnoslash_req _ hmem (List.mem_of_mem_head? hh)
      · rw [if_neg hph]
        intro hh
        exact hnoslash_out first hfirst_mem (List.mem_of_mem_head? hh)
    have hres := CreatPath_value (freshRoute inSlice outSlice lb) path params hex
      (substSegment params first) (rest.map (substSegment params))
      (by simp [freshRoute, houtS]) (by simpa [freshRoute] using houtne) hfirst_ne
    rw [← houtS, hres, if_neg hfirst_slash, stringsJoin_slash_cons, ← hmap, houtS]
    rfl

/-! ## The round-robin balancer -/

/-- C7 (the code at the failing input): with the hosts h1 (enabled), h2
(disabled), h3 (enabled) and a fresh round-robin balancer, the first four
selections return h1, h2, h3, h1: the second one is the disabled host. -/
theorem RoundRobin_selects_disabled_host :
    routeThreeHosts.HostsList[1]? = some ⟨ascii "h2", false⟩ ∧
    selections 4 routeThreeHosts =
      [.ok (ascii "h1"), .ok (ascii "h2"), .ok (ascii "h3"), .ok (ascii "h1")] := by
  decide

/-- C8 (the code at the failing input): the route that `SetKey` registers has
no host, and a selection on it faults on `p.HostsList[0]`; on a route whose
only host is disabled a selection returns that host and no error. -/
theorem RoundRobin_faults_on_empty_pool :
    (SetKey NewAPIHandler (ascii "/a") (ascii "/x") RoundRobin).2.get (ascii "/a") =
      some (freshRoute [ascii "a"] [ascii "x"] ⟨0⟩) ∧
    (freshRoute [ascii "a"] [ascii "x"] ⟨0⟩).HostsList = [] ∧
    (freshRoute [ascii "a"] [ascii "x"] ⟨0⟩).callLoadBalancer.1 = .fault ∧
    routeDisabledHost.callLoadBalancer.1 = .ok (ascii "h1") := by
  decide

/-! ## Registration -/

theorem get_modify (h : APIHandler) (key k : Str) (f : Proxy → Proxy) :
    (h.modify key f).get k = if k = key then (h.get k).map f else h.get k := by
  obtain ⟨l⟩ := h
  simp only [APIHandler.modify, APIHandler.get, List.find?_map]
  have hcomp : ((fun kv : Str × Proxy => decide (kv.1 = k)) ∘
      fun kv : Str × Proxy => if kv.1 = key then (kv.1, f kv.2) else kv) =
      fun kv : Str × Proxy => decide (kv.1 = k) := by
    funext kv
    by_cases hk : kv.1 = key <;> simp [hk]
  rw [hcomp]
  cases hfind : l.find? (fun kv : Str × Proxy => decide (kv.1 = k)) with
  | none => simp
  | some kv =>
    have h1 : decide (kv.1 = k) = true :=
      @List.find?_some _ (fun kv : Str × Proxy => decide (kv.1 = k)) _ _ hfind
    have h2 : kv.1 = k := of_decide_eq_true h1
    by_cases hk : k = key
    · have h3 : kv.1 = key := h2.trans hk
      simp [hk, h3]
    · have h3 : ¬ kv.1 = key := fun h4 => hk (h2.symm.trans h4)
      simp [hk, h3]

theorem keys_modify (h : APIHandler) (key : Str) (f : Proxy → Proxy) :
    (h.modify key f).Proxies.map Prod.fst = h.Proxies.map Prod.fst := by
  obtain ⟨l⟩ := h
  simp only [APIHandler.modify, List.map_map]
  apply List.map_congr_left
  intro kv _
  by_cases hk : kv.1 = key <;> simp [hk]

/-- What a successful `SetKey` on a registered key does: both patterns split,
and the registry is the old one with the route under the key rewritten. -/
theorem SetKey_existing (h h' : APIHandler) (inPath out key : Str)
    (factory : LoadBalancerFactory) (p : Proxy) (hget : h.get key = some p)
    (hkey : deriveKey inPath = some key) (hok : SetKey h inPath out factory = (.ok (), h')) :
    ∃ inSlice outSlice, SplitUrl inPath = .ok inSlice ∧ SplitUrl out = .ok outSlice ∧
      h' = h.modify key (fun q =>
        { q with inSlice := inSlice, outSlice := outSlice, LoadBalancer := factory () }) := by
  unfold SetKey at hok
  rw [hkey] at hok
  simp only at hok
  cases hin : SplitUrl inPath with
  | error e => rw [hin] at hok; simp at hok
  | fault => rw [hin] at hok; simp at hok
  | ok inSlice =>
    rw [hin] at hok
    simp only at hok
    cases hout : SplitUrl out with
    | error e => rw [hout] at hok; simp at hok
    | fault => rw [hout] at hok; simp at hok
    | ok outSlice =>
      rw [hout] at hok
      simp only [hget] at hok
      exact ⟨inSlice, outSlice, rfl, rfl, (Prod.mk.inj hok).2.symm⟩

/-- C9: when the registry holds a route `p` under the key `key`, a successful
`SetKey` whose input pattern derives `key` leaves under `key` the route `p`
with only its two templates and its balancer replaced, so with the host list
of `p`; every other key maps to the route it mapped to before, and the keys of
the registry are the same, in the same order. -/
theorem SetKey_existing_keeps_hosts (h h' : APIHandler) (inPath out key : Str)
    (factory : LoadBalancerFactory) (p : Proxy) (hget : h.get key = some p)
    (hkey : deriveKey inPath = some key) (hok : SetKey h inPath out factory = (.ok (), h')) :
    ∃ inSlice outSlice, SplitUrl inPath = .ok inSlice ∧ SplitUrl out = .ok outSlice ∧
      h'.get key = some { p with inSlice := inSlice, outSlice := outSlice,
                                 LoadBalancer := factory () } ∧
      (∀ q, h'.get key = some q → q.HostsList = p.HostsList) ∧
      (∀ k, k ≠ key → h'.get k = h.get k) ∧
      h'.Proxies.map Prod.fst = h.Proxies.map Prod.fst := by
  obtain ⟨inSlice, outSlice, hin, hout, hh⟩ :=
    SetKey_existing h h' inPath out key factory p hget hkey hok
  have hk : h'.get key =
      some { p with inSlice := inSlice, outSlice := outSlice, LoadBalancer := factory () } := by
    rw [hh, get_modify, if_pos rfl, hget]; rfl
  refine ⟨inSlice, outSlice, hin, hout, hk, fun q hq => ?_, fun k hne => ?_, ?_⟩
  · rw [hk] at hq
    rw [← Option.some.inj hq]
  · rw [hh, get_modify, if_neg hne]
  · rw [hh, keys_modify]

/-- C9 at the registry whose route `/a` has the host `h1`: registering the
input pattern `/a/:id`, which derives the key `/a`, with a new output pattern
keeps the host. -/
theorem SetKey_existing_keeps_hosts_witness :
    ∃ inSlice outSlice, SplitUrl (ascii "/a/:id") = .ok inSlice ∧
      SplitUrl (ascii "/y/:id") = .ok outSlice ∧
      (SetKey registryHost (ascii "/a/:id") (ascii "/y/:id") RoundRobin).2.get (ascii "/a") =
        some { ({ freshRoute [ascii "a"] [ascii "x"] ⟨0⟩ with
                  HostsList := [NewProxyValue (ascii "h1")] } : Proxy) with
               inSlice := inSlice, outSlice := outSlice, LoadBalancer := RoundRobin () } ∧
      (∀ q, (SetKey registryHost (ascii "/a/:id") (ascii "/y/:id") RoundRobin).2.get
          (ascii "/a") = some q →
        q.HostsList = [NewProxyValue (ascii "h1")]) ∧
      (∀ k, k ≠ ascii "/a" →
        (SetKey registryHost (ascii "/a/:id") (ascii "/y/:id") RoundRobin).2.get k =
          registryHost.get k) ∧
      (SetKey registryHost (ascii "/a/:id") (ascii "/y/:id") RoundRobin).2.Proxies.map Prod.fst =
        registryHost.Proxies.map Prod.fst :=
  SetKey_existing_keeps_hosts registryHost
    (SetKey registryHost (ascii "/a/:id") (ascii "/y/:id") RoundRobin).2
    (ascii "/a/:id") (ascii "/y/:id") (ascii "/a") RoundRobin
    { freshRoute [ascii "a"] [ascii "x"] ⟨0⟩ with HostsList := [NewProxyValue (ascii "h1")] }
    (by decide) (by decide) (by decide)

/-- C10 (the code at the failing input): `AddHost` with the route identifier
`:id` and the empty address faults in the slice `inPath[0 : i-1]`, before the
address is looked at; the registry is left as it was. -/
theorem AddHost_faults_before_validation :
    deriveKey (ascii ":id") = none ∧
    AddHost registryAB (ascii ":id") (ascii "") = (.fault, registryAB) ∧
    AddHost registryAB (ascii "*") (ascii "h1") = (.fault, registryAB) := by
  decide

/-- `AddHost` on a route identifier from which a key is derived: an empty
address and an unregistered key both end in an error, with the registry
unchanged. -/
theorem AddHost_error_cases (h : APIHandler) (inPath value key : Str)
    (hkey : deriveKey inPath = some key) :
    (value = [] → AddHost h inPath value = (.error .addHostEmpty, h)) ∧
    (h.get key = none → ∃ e, AddHost h inPath value = (.error e, h)) := by
  unfold AddHost
  rw [hkey]
  refine ⟨fun hv => by simp [hv], fun hg => ?_⟩
  by_cases hv : value = [] ∨ inPath = []
  · exact ⟨.addHostEmpty, by simp only [if_pos hv]⟩
  · exact ⟨.addHostNoKey, by simp only [if_neg hv, hg]⟩

theorem get_delete (h : APIHandler) (key k : Str) :
    (h.delete key).get k = if k = key then none else h.get k := by
  obtain ⟨l⟩ := h
  simp only [APIHandler.delete, APIHandler.get]
  induction l with
  | nil => simp
  | cons kv l ih =>
    by_cases hkk : kv.1 = key
    · have hf : decide (kv.1 ≠ key) = false := by simp [hkk]
      rw [List.filter_cons_of_neg (by simp [hkk]), ih]
      by_cases hk : k = key
      · simp [hk]
      · have : ¬ kv.1 = k := fun h1 => hk (h1.symm.trans hkk)
        simp [hk, List.find?_cons, this]
    · rw [List.filter_cons_of_pos (by simp [hkk])]
      by_cases hk : kv.1 = k
      · have : ¬ k = key := fun h1 => hkk (hk.trans h1)
        simp [List.find?_cons, hk, this]
      · simp only [List.find?_cons, hk, decide_False]
        exact ih

/-- What a successful `AddHost` does to the registry. -/
theorem AddHost_registered (h : APIHandler) (inPath value key : Str) (p : Proxy)
    (hkey : deriveKey inPath = some key) (hget : h.get key = some p) (hval : value ≠ [])
    (hin : inPath ≠ []) :
    AddHost h inPath value =
      (.ok (), h.modify key (fun q =>
        { q with HostsList := q.HostsList ++ [NewProxyValue value] })) := by
  unfold AddHost
  rw [hkey]
  have hv : ¬ (value = [] ∨ inPath = []) := fun hor => hor.elim hval hin
  simp only [if_neg hv, hget]

/-- C11 (as stated, refuted): the input pattern `/:id` registers its route
under the empty key; for the route identifier `""` the derived key is that
registered key and the address `h1` is non-empty, and `AddHost` returns the
error of its test `value == "" || inPath == ""`, the registry unchanged. -/
theorem AddHost_empty_identifier_rejected :
    registryEmptyKey.get [] = some (freshRoute [ascii ":id"] [ascii ":id"] ⟨0⟩) ∧
    deriveKey [] = some [] ∧
    AddHost registryEmptyKey [] (ascii "h1") = (.error .addHostEmpty, registryEmptyKey) := by
  decide

/-- C11 (amended): when the address and the route identifier are both
non-empty and the key derived from the identifier is registered with the route
`p`, `AddHost` returns no error; afterwards the key holds `p` with its host
list followed by exactly one new host, whose `DomainName` is the address and
whose `Enable` is true, everything else in `p` as before; every other key maps
to the route it mapped to before, and the keys are the same. -/
theorem AddHost_appends_host (h : APIHandler) (inPath value key : Str) (p : Proxy)
    (hkey : deriveKey inPath = some key) (hget : h.get key = some p) (hval : value ≠ [])
    (hin : inPath ≠ []) :
    (AddHost h inPath value).1 = .ok () ∧
    (AddHost h inPath value).2.get key =
      some { p with HostsList := p.HostsList ++ [{ DomainName := value, Enable := true }] } ∧
    (∀ k, k ≠ key → (AddHost h inPath value).2.get k = h.get k) ∧
    (AddHost h inPath value).2.Proxies.map Prod.fst = h.Proxies.map Prod.fst := by
  rw [AddHost_registered h inPath value key p hkey hget hval hin]
  refine ⟨rfl, ?_, fun k hne => ?_, keys_modify h key _⟩
  · rw [get_modify, if_pos rfl, hget]; rfl
  · rw [get_modify, if_neg hne]

/-- C11 (amended) at the registry with routes `/a` and `/a/b`: adding the host
`h1` through the identifier `/a/:id`, whose key is `/a`. -/
theorem AddHost_appends_host_witness :
    (AddHost registryAB (ascii "/a/:id") (ascii "h1")).1 = .ok () ∧
    (AddHost registryAB (ascii "/a/:id") (ascii "h1")).2.get (ascii "/a") =
      some { freshRoute [ascii "a"] [ascii "x"] ⟨0⟩ with
             HostsList := [{ DomainName := ascii "h1", Enable := true }] } ∧
    (∀ k, k ≠ ascii "/a" →
      (AddHost registryAB (ascii "/a/:id") (ascii "h1")).2.get k = registryAB.get k) ∧
    (AddHost registryAB (ascii "/a/:id") (ascii "h1")).2.Proxies.map Prod.fst =
      registryAB.Proxies.map Prod.fst :=
  AddHost_appends_host registryAB (ascii "/a/:id") (ascii "h1") (ascii "/a")
    (freshRoute [ascii "a"] [ascii "x"] ⟨0⟩) (by decide) (by decide) (by decide) (by decide)

/-- C12: `DeleteKey` returns an error exactly when the key is not registered,
and then the registry is unchanged; when the key is registered it returns no
error, the key is not registered afterwards and every other key maps to the
route it mapped to before; it never faults. -/
theorem DeleteKey_error_iff (h : APIHandler) (key : Str) :
    ((∃ e, (DeleteKey h key).1 = .error e) ↔ h.get key = none) ∧
    (h.get key = none → (DeleteKey h key).2 = h) ∧
    (h.get key ≠ none →
      (DeleteKey h key).1 = .ok () ∧ (DeleteKey h key).2.get key = none ∧
      ∀ k, k ≠ key → (DeleteKey h key).2.get k = h.get k) ∧
    (DeleteKey h key).1 ≠ .fault := by
  unfold DeleteKey
  cases hg : h.get key with
  | none =>
    exact ⟨⟨fun _ => rfl, fun _ => ⟨_, rfl⟩⟩, fun _ => rfl, fun hne => absurd rfl hne,
      by simp⟩
  | some q =>
    refine ⟨⟨fun ⟨e, he⟩ => by simp at he, fun hn => by simp at hn⟩, fun hn => by simp at hn,
      fun _ => ⟨rfl, ?_, fun k hne => ?_⟩, by simp⟩
    · rw [get_delete, if_pos rfl]
    · rw [get_delete, if_neg hne]

/-- C12 at the registry with routes `/a` and `/a/b`: deleting `/a` succeeds,
unregisters `/a` and keeps `/a/b`; deleting the absent key `/b` is an error
that changes nothing. -/
theorem DeleteKey_error_iff_witness :
    ((DeleteKey registryAB (ascii "/a")).1 = .ok () ∧
      (DeleteKey registryAB (ascii "/a")).2.get (ascii "/a") = none ∧
      ∀ k, k ≠ ascii "/a" → (DeleteKey registryAB (ascii "/a")).2.get k = registryAB.get k) ∧
    (∃ e, (DeleteKey registryAB (ascii "/b")).1 = .error e) ∧
    (DeleteKey registryAB (ascii "/b")).2 = registryAB :=
  ⟨(DeleteKey_error_iff registryAB (ascii "/a")).2.2.1 (by decide),
   (DeleteKey_error_iff registryAB (ascii "/b")).1.2 (by decide),
   (DeleteKey_error_iff registryAB (ascii "/b")).2.1 (by decide)⟩

/-- C13 (the code at the failing inputs): `SetKey` faults, the registry
unchanged, on the non-empty input patterns `/` (in `SplitUrl`) and `:id` (in
the key loop) with the output pattern `/x`, and on the output pattern `/` with
the input pattern `/a`; with the empty output pattern and the input pattern
`:id` it faults before it reaches the error of the empty pattern.  The empty
input pattern, and the empty output pattern after `/a`, give the error. -/
theorem SetKey_faults_on_nonempty_patterns :
    SetKey NewAPIHandler (ascii "/") (ascii "/x") RoundRobin = (.fault, NewAPIHandler) ∧
    SetKey NewAPIHandler (ascii ":id") (ascii "/x") RoundRobin = (.fault, NewAPIHandler) ∧
    SetKey NewAPIHandler (ascii "/a") (ascii "/") RoundRobin = (.fault, NewAPIHandler) ∧
    SetKey NewAPIHandler (ascii ":id") (ascii "") RoundRobin = (.fault, NewAPIHandler) ∧
    SetKey NewAPIHandler (ascii "") (ascii "/x") RoundRobin =
      (.error .urlIsEmpty, NewAPIHandler) ∧
    SetKey NewAPIHandler (ascii "/a") (ascii "") RoundRobin =
      (.error .urlIsEmpty, NewAPIHandler) := by
  decide

/-- C14 (the code at the failing input): `SplitUrl` splits `/a/b` into `a`,
`b`, and `/a/b/` into `a` and the empty string, having cut the two bytes `b/`;
it splits `a` into `a` and `a/` into nothing, and it faults on `/`. -/
theorem SplitUrl_cuts_two_bytes :
    SplitUrl (ascii "/a/b") = .ok [ascii "a", ascii "b"] ∧
    SplitUrl (ascii "/a/b/") = .ok [ascii "a", ascii ""] ∧
    SplitUrl (ascii "a") = .ok [ascii "a"] ∧
    SplitUrl (ascii "a/") = .ok [] ∧
    SplitUrl (ascii "/") = .fault := by
  decide

/-- C17 (the code at the failing input): on the route freshly registered for
`/svc/:id/item/:item` and `/v2/:item/:id`, `CreatPath` rewrites `/svc/1/item/2`
to `/v2/2/1`; after a call on `/svc/42/item/99`, which leaves the output slice
`/v2`, `99`, `42`, it rewrites `/svc/1/item/2` to `/v2/99/42`. -/
theorem CreatPath_overwrites_output_template :
    (CreatPath routeSvc (ascii "/svc/1/item/2")).1 = .ok (ascii "/v2/2/1") ∧
    (CreatPath routeSvc (ascii "/svc/42/item/99")).1 = .ok (ascii "/v2/99/42") ∧
    (CreatPath routeSvc (ascii "/svc/42/item/99")).2.outSlice =
      [ascii "/v2", ascii "99", ascii "42"] ∧
    (CreatPath (CreatPath routeSvc (ascii "/svc/42/item/99")).2 (ascii "/svc/1/item/2")).1 =
      .ok (ascii "/v2/99/42") := by
  decide

/-- C20 (the code at the failing inputs): the registry reached by
`SetKey("/svc/:id", "/:id")` and `AddHost("/svc/:id", "h1")`, both without
error, matches the request `/svc//x` to its route, which has one host, and
`CheckAndCreateUrl` faults; so it does on the request `/` in the registry
reached by `SetKey("/:id", "/:id")` and `AddHost("/:id", "h1")`. -/
theorem CheckAndCreateUrl_faults :
    (SetKey NewAPIHandler (ascii "/svc/:id") (ascii "/:id") RoundRobin).1 = .ok () ∧
    (AddHost (SetKey NewAPIHandler (ascii "/svc/:id") (ascii "/:id") RoundRobin).2
      (ascii "/svc/:id") (ascii "h1")).1 = .ok () ∧
    MatchRouter registrySvc orderStored (ascii "/svc//x") =
      .ok (ascii "/svc",
        { freshRoute [ascii "svc", ascii ":id"] [ascii ":id"] ⟨0⟩ with
          HostsList := [NewProxyValue (ascii "h1")] }) ∧
    (CheckAndCreateUrl registrySvc orderStored (ascii "/svc//x")).1 = .fault ∧
    (SetKey NewAPIHandler (ascii "/:id") (ascii "/:id") RoundRobin).1 = .ok () ∧
    (AddHost registryEmptyKey (ascii "/:id") (ascii "h1")).1 = .ok () ∧
    MatchRouter (AddHost registryEmptyKey (ascii "/:id") (ascii "h1")).2 orderStored
        (ascii "/") =
      .ok ([], { freshRoute [ascii ":id"] [ascii ":id"] ⟨0⟩ with
                 HostsList := [NewProxyValue (ascii "h1")] }) ∧
    (CheckAndCreateUrl (AddHost registryEmptyKey (ascii "/:id") (ascii "h1")).2 orderStored
      (ascii "/")).1 = .fault := by
  decide

/-- One selection on a non-empty host list with a cursor `c ≥ 0`: the index
read is `c`, or 0 when `c` is past the end; it is in range, the address of the
host there is returned and the cursor becomes the index plus one. -/
theorem callLoadBalancer_ok (p : Proxy) (c : Nat) (hc : p.LoadBalancer.i = (c : Int))
    (hne : p.HostsList ≠ []) :
    ∃ host, p.HostsList[if p.HostsList.length ≤ c then 0 else c]? = some host ∧
      p.callLoadBalancer =
        (.ok host.DomainName,
          { p with LoadBalancer :=
                     ⟨((if p.HostsList.length ≤ c then 0 else c : Nat) : Int) + 1⟩ }) := by
  have hpos : 0 < p.HostsList.length := List.length_pos.2 hne
  unfold Proxy.callLoadBalancer
  by_cases hle : p.HostsList.length ≤ c
  · have hg : (p.HostsList.length : Int) - 1 < (c : Int) := by omega
    obtain ⟨host, hhost⟩ : ∃ host, p.HostsList[0]? = some host :=
      ⟨p.HostsList[0], List.getElem?_eq_getElem hpos⟩
    refine ⟨host, by simpa [hle] using hhost, ?_⟩
    simp only [hc, gt_iff_lt, if_pos hg, if_pos hle]
    simp [hhost]
  · have hg : ¬ (p.HostsList.length : Int) - 1 < (c : Int) := by omega
    have hlt : c < p.HostsList.length := Nat.lt_of_not_le hle
    obtain ⟨host, hhost⟩ : ∃ host, p.HostsList[c]? = some host :=
      ⟨p.HostsList[c], List.getElem?_eq_getElem hlt⟩
    refine ⟨host, by simpa [hle] using hhost, ?_⟩
    simp only [hc, gt_iff_lt, if_neg hg, if_neg hle]
    simp [hhost]

/-- With a cursor `c` not past the end of a fixed non-empty host list, the
`k`-th selection from there returns the host at index `(c + k) mod n`. -/
theorem selections_cursor (hosts : List OutHost) (hne : hosts ≠ []) :
    ∀ (k : Nat) (p : Proxy) (c : Nat), p.HostsList = hosts → p.LoadBalancer.i = (c : Int) →
      c ≤ hosts.length →
      ∃ host, hosts[(c + k) % hosts.length]? = some host ∧
        (selections (k + 1) p)[k]? = some (.ok host.DomainName) := by
  have hpos : 0 < hosts.length := List.length_pos.2 hne
  intro k
  induction k with
  | zero =>
    intro p c hp hc hle
    obtain ⟨host, h1, h2⟩ := callLoadBalancer_ok p c hc (hp ▸ hne)
    rw [hp] at h1
    refine ⟨host, ?_, by simp [selections, h2]⟩
    by_cases hcn : hosts.length ≤ c
    · have : c = hosts.length := Nat.le_antisymm hle hcn
      simpa [this, hcn] using h1
    · rw [if_neg hcn] at h1
      rw [Nat.add_zero, Nat.mod_eq_of_lt (Nat.lt_of_not_le hcn)]
      exact h1
  | succ k ih =>
    intro p c hp hc hle
    obtain ⟨host0, h1, h2⟩ := callLoadBalancer_ok p c hc (hp ▸ hne)
    rw [hp] at h1 h2
    have hj : (if hosts.length ≤ c then 0 else c) + 1 ≤ hosts.length := by
      by_cases hcn : hosts.length ≤ c
      · rw [if_pos hcn]; omega
      · rw [if_neg hcn]; omega
    have hjmod : (if hosts.length ≤ c then 0 else c) = c % hosts.length := by
      by_cases hcn : hosts.length ≤ c
      · have : c = hosts.length := Nat.le_antisymm hle hcn
        rw [if_pos hcn, this, Nat.mod_self]
      · rw [if_neg hcn, Nat.mod_eq_of_lt (Nat.lt_of_not_le hcn)]
    obtain ⟨host, h3, h4⟩ :=
      ih p.callLoadBalancer.2 ((if hosts.length ≤ c then 0 else c) + 1)
        (by rw [h2]) (by rw [h2]; simp) hj
    refine ⟨host, ?_, ?_⟩
    · rw [hjmod] at h3
      have : (c % hosts.length + 1 + k) % hosts.length = (c + (k + 1)) % hosts.length := by
        rw [Nat.add_assoc, Nat.mod_add_mod, Nat.add_comm 1 k]
      rw [← this]; exact h3
    · rw [selections, List.getElem?_cons_succ]; exact h4

/-- With a cursor `c ≥ 0`, selections over host lists that change between the
calls and are non-empty at each call all return the address of a host of the
list of their call. -/
theorem selectionsOver_cursor :
    ∀ (pools : List (List OutHost)) (p : Proxy) (c : Nat), p.LoadBalancer.i = (c : Int) →
      (∀ hosts ∈ pools, hosts ≠ []) →
      List.Forall₂ (fun hosts r => ∃ host ∈ hosts, r = Outcome.ok host.DomainName) pools
        (selectionsOver p pools) := by
  intro pools
  induction pools with
  | nil => intro p c _ _; exact List.Forall₂.nil
  | cons hosts pools ih =>
    intro p c hc hne
    have hne0 : ({ p with HostsList := hosts } : Proxy).HostsList ≠ [] :=
      hne hosts (List.mem_cons_self hosts pools)
    obtain ⟨host, h1, h2⟩ :=
      callLoadBalancer_ok ({ p with HostsList := hosts } : Proxy) c hc hne0
    rw [selectionsOver]
    refine List.Forall₂.cons ⟨host, List.getElem?_mem h1, by rw [h2]⟩ ?_
    exact ih _ ((if hosts.length ≤ c then 0 else c) + 1) (by rw [h2]; simp)
      (fun hs hmem => hne hs (List.mem_cons_of_mem hosts hmem))

/-- C16: for a route whose balancer is freshly created by `RoundRobin` and
whose host list stays fixed and has `n ≥ 1` hosts, the `k`-th selection
(`k = 0, 1, 2, ...`) returns, with no error, the address of the host at index
`k mod n`; and for a fresh balancer and any sequence of host lists, one per
call and each non-empty, every selection returns the address of a host of the
list of its call, so the index read is within bounds. -/
theorem RoundRobin_cycles :
    (∀ (p : Proxy) (k : Nat), p.LoadBalancer = RoundRobin () → p.HostsList ≠ [] →
      ∃ host, p.HostsList[k % p.HostsList.length]? = some host ∧
        (selections (k + 1) p)[k]? = some (.ok host.DomainName)) ∧
    (∀ (p : Proxy) (pools : List (List OutHost)), p.LoadBalancer = RoundRobin () →
      (∀ hosts ∈ pools, hosts ≠ []) →
      List.Forall₂ (fun hosts r => ∃ host ∈ hosts, r = Outcome.ok host.DomainName) pools
        (selectionsOver p pools)) := by
  refine ⟨fun p k hp hne => ?_, fun p pools hp hne => ?_⟩
  · have := selections_cursor p.HostsList hne k p 0 rfl (by rw [hp]; rfl) (Nat.zero_le _)
    simpa using this
  · exact selectionsOver_cursor pools p 0 (by rw [hp]; rfl) hne

/-- C16 at the route with the hosts h1, h2, h3: the selection number 4 returns
the host at index 4 mod 3 = 1; and with a fresh cursor the selections over the
host lists [h1, h2, h3], [h1], [h1, h2] return h1, h1, h2. -/
theorem RoundRobin_cycles_witness :
    (∃ host, routeThreeHosts.HostsList[4 % routeThreeHosts.HostsList.length]? = some host ∧
      (selections (4 + 1) routeThreeHosts)[4]? = some (.ok host.DomainName)) ∧
    List.Forall₂ (fun hosts r => ∃ host ∈ hosts, r = Outcome.ok host.DomainName)
      [routeThreeHosts.HostsList, [⟨ascii "h1", true⟩], [⟨ascii "h1", true⟩, ⟨ascii "h2", true⟩]]
      (selectionsOver routeThreeHosts
        [routeThreeHosts.HostsList, [⟨ascii "h1", true⟩],
          [⟨ascii "h1", true⟩, ⟨ascii "h2", true⟩]]) :=
  ⟨RoundRobin_cycles.1 routeThreeHosts 4 (by decide) (by decide),
   RoundRobin_cycles.2 routeThreeHosts
     [routeThreeHosts.HostsList, [⟨ascii "h1", true⟩], [⟨ascii "h1", true⟩, ⟨ascii "h2", true⟩]]
     (by decide) (by decide)⟩

/-- The extractor loop on a pattern without wildcard gives the same result on
two requests of the same length that agree at the positions of the `:name`
segments. -/
theorem inParamsLoop_positional (req1 req2 : List Str) (hlen : req1.length = req2.length) :
    ∀ (rest : List Str) (i0 : Nat) (ret : Params), (∀ s ∈ rest, s.head? ≠ some star) →
      (∀ j s, rest[j]? = some s → s.head? = some colon → req1[i0 + j]? = req2[i0 + j]?) →
      inParamsLoop req1 i0 rest ret = inParamsLoop req2 i0 rest ret := by
  intro rest
  induction rest with
  | nil => intro i0 ret _ _; simp [inParamsLoop]
  | cons a rest ih =>
    intro i0 ret hnw hagree
    by_cases hshort : req1.length ≤ i0
    · rw [inParamsLoop, inParamsLoop, if_pos (guard_true req1 i0 hshort),
        if_pos (guard_true req2 i0 (hlen ▸ hshort))]
    · have hlt1 : i0 < req1.length := Nat.lt_of_not_le hshort
      have hlt2 : i0 < req2.length := hlen ▸ hlt1
      obtain ⟨sg1, hsg1⟩ := getElem?_of_lt req1 i0 hlt1
      obtain ⟨sg2, hsg2⟩ := getElem?_of_lt req2 i0 hlt2
      cases hhead : a.head? with
      | none =>
        rw [inParamsLoop, inParamsLoop, if_neg (guard_false req1 i0 hlt1),
          if_neg (guard_false req2 i0 hlt2), hhead]
      | some c =>
        have hcs : ¬ (c = star) := fun h => hnw a (List.mem_cons_self a rest) (h ▸ hhead)
        rw [inParamsLoop_step req1 i0 a rest ret c sg1 hhead hsg1,
          inParamsLoop_step req2 i0 a rest ret c sg2 hhead hsg2, if_neg hcs, if_neg hcs]
        have hret : (if c = colon then ret.set a sg1 else ret) =
            (if c = colon then ret.set a sg2 else ret) := by
          by_cases hcol : c = colon
          · have h0 := hagree 0 a (by simp) (hcol ▸ hhead)
            rw [Nat.add_zero, hsg1, hsg2] at h0
            rw [Option.some.inj h0]
          · rw [if_neg hcol, if_neg hcol]
        rw [hret]
        apply ih (i0 + 1) _ (fun s hs => hnw s (List.mem_cons_of_mem a hs))
        intro j s hj hcolon
        have := hagree (j + 1) s (by simpa using hj) hcolon
        have e : i0 + 1 + j = i0 + (j + 1) := by omega
        rw [e]; exact this

/-- The extractor is positional on the segments that `SplitUrl` returns: for
every input pattern without a wildcard segment and every two request paths that
`SplitUrl` splits into the same number of segments, agreeing at every position
where the pattern has a `:name` segment, the extractor returns the same result
on both.  This is about the lists `SplitUrl` returns, which for a path ending
in `/` are not the segments of the path. -/
theorem inParamsFunc_positional (inSlice : List Str) (path1 path2 : Str)
    (req1 req2 : List Str) (hnw : ∀ s ∈ inSlice, s.head? ≠ some star)
    (h1 : SplitUrl path1 = .ok req1) (h2 : SplitUrl path2 = .ok req2)
    (hlen : req1.length = req2.length)
    (hagree : ∀ (i : Nat) (s : Str), inSlice[i]? = some s → s.head? = some colon →
      req1[i]? = req2[i]?) :
    inParamsFunc inSlice path1 = inParamsFunc inSlice path2 := by
  unfold inParamsFunc
  rw [h1, h2]
  exact inParamsLoop_positional req1 req2 hlen inSlice 0 Params.empty hnw
    (fun j s hj hc => by rw [Nat.zero_add]; exact hagree j s hj hc)

/-- The pattern `/svc/:id/item/:item` and the requests `/svc/42/item/99` and
`/xyz/42/other/99`, which differ at the two literal positions only: the
extractor binds the same values. -/
theorem inParamsFunc_positional_example :
    inParamsFunc routeSvc.inSlice (ascii "/svc/42/item/99") =
      inParamsFunc routeSvc.inSlice (ascii "/xyz/42/other/99") ∧
    lookupParam (inParamsFunc routeSvc.inSlice (ascii "/xyz/42/other/99")) (ascii ":id") =
      .ok (some (ascii "42")) :=
  ⟨inParamsFunc_positional routeSvc.inSlice (ascii "/svc/42/item/99") (ascii "/xyz/42/other/99")
    [ascii "svc", ascii "42", ascii "item", ascii "99"]
    [ascii "xyz", ascii "42", ascii "other", ascii "99"]
    (by decide) (by decide) (by decide) (by decide)
    (by
      intro i s hi hc
      match i, hi with
      | 0, hi => simp [routeSvc, freshRoute] at hi; subst hi; exact absurd hc (by decide)
      | 1, _ => rfl
      | 2, hi => simp [routeSvc, freshRoute] at hi; subst hi; exact absurd hc (by decide)
      | 3, _ => rfl
      | n + 4, hi => simp [routeSvc, freshRoute] at hi),
   by decide⟩

/-- C18 (the code at the failing inputs): for the pattern `/:id/lit`, whose
only `:name` segment is at position 0, the request paths `/42//` and `/42/a/`
have the same number of segments and differ at position 1 only, the position
of the literal; `SplitUrl` cuts two bytes from each, returning `42` for the
first and `42`, `""` for the second, and the extractor returns "inpath is too
short" on the first and a mapping with `:id` bound to `42` on the second.  For
the pattern `/svc/:id` the requests `/svc/42` and `/svc/42/` bind `:id` to `42`
and to `4`. -/
theorem inParamsFunc_depends_on_literal_position :
    SplitUrl (ascii "/:id/lit") = .ok [ascii ":id", ascii "lit"] ∧
    stringsSplit (ascii "/42//") = [ascii "", ascii "42", ascii "", ascii ""] ∧
    stringsSplit (ascii "/42/a/") = [ascii "", ascii "42", ascii "a", ascii ""] ∧
    SplitUrl (ascii "/42//") = .ok [ascii "42"] ∧
    SplitUrl (ascii "/42/a/") = .ok [ascii "42", ascii ""] ∧
    (inParamsFunc [ascii ":id", ascii "lit"] (ascii "/42//")).kind = .error .inpathTooShort ∧
    lookupParam (inParamsFunc [ascii ":id", ascii "lit"] (ascii "/42/a/")) (ascii ":id") =
      .ok (some (ascii "42")) ∧
    SplitUrl (ascii "/svc/:id") = .ok [ascii "svc", ascii ":id"] ∧
    lookupParam (inParamsFunc [ascii "svc", ascii ":id"] (ascii "/svc/42")) (ascii ":id") =
      .ok (some (ascii "42")) ∧
    lookupParam (inParamsFunc [ascii "svc", ascii ":id"] (ascii "/svc/42/")) (ascii ":id") =
      .ok (some (ascii "4")) := by
  decide

/-! ## Matching the requests of a registered pattern -/

theorem stringsSplit_ne_nil (u : Str) : stringsSplit u ≠ [] := by
  cases u with
  | nil => simp [stringsSplit]
  | cons c cs =>
    rw [stringsSplit]
    split
    · simp
    · split <;> simp

theorem stringsJoin_cons_cons (c : UInt8) (w : Str) (ws : List Str) :
    stringsJoin ((c :: w) :: ws) = c :: stringsJoin (w :: ws) := by
  cases ws <;> simp [stringsJoin]

/-- Joining the pieces of a string gives the string back. -/
theorem stringsJoin_stringsSplit (u : Str) : stringsJoin (stringsSplit u) = u := by
  induction u with
  | nil => simp [stringsSplit, stringsJoin]
  | cons c cs ih =>
    by_cases hc : c = slash
    · rw [stringsSplit, if_pos hc]
      cases hsp : stringsSplit cs with
      | nil => exact absurd hsp (stringsSplit_ne_nil cs)
      | cons w ws =>
        rw [hsp] at ih
        simp [stringsJoin, ih, hc]
    · rw [stringsSplit, if_neg hc]
      cases hsp : stringsSplit cs with
      | nil => exact absurd hsp (stringsSplit_ne_nil cs)
      | cons w ws =>
        rw [hsp] at ih
        simp only [stringsJoin_cons_cons, ih]

/-- The key loop returns a prefix of the pattern that holds no `:` and no
`*`. -/
theorem keyLoop_prefix (inPath : Str) :
    ∀ (rest pre : Str), inPath = pre ++ rest → (∀ b ∈ pre, b ≠ colon ∧ b ≠ star) →
      ∀ key, keyLoop inPath pre.length rest = some key →
        key <+: inPath ∧ ∀ b ∈ key, b ≠ colon ∧ b ≠ star := by
  intro rest
  induction rest with
  | nil =>
    intro pre hin hpre key hkey
    simp only [keyLoop, Option.some.injEq] at hkey
    subst hkey
    rw [List.append_nil] at hin
    exact ⟨List.prefix_rfl, hin ▸ hpre⟩
  | cons v vs ih =>
    intro pre hin hpre key hkey
    by_cases hv : v = colon ∨ v = star
    · rw [keyLoop, if_pos hv] at hkey
      unfold goSlice at hkey
      split at hkey
      · rename_i hcond
        simp only [Option.some.injEq] at hkey
        have hk : key = inPath.take (pre.length - 1) := by
          rw [← hkey]
          simp only [Int.toNat_zero, List.drop_zero, Nat.sub_zero]
          congr 1
          omega
        refine ⟨hk ▸ List.take_prefix _ _, fun b hb => hpre b ?_⟩
        rw [hk, hin, List.take_append_of_le_length (Nat.sub_le _ _)] at hb
        exact List.mem_of_mem_take hb
      · exact Option.noConfusion hkey
    · rw [keyLoop, if_neg hv] at hkey
      have hlen : (pre ++ [v]).length = pre.length + 1 := by simp
      rw [← hlen] at hkey
      refine ih (pre ++ [v]) (by rw [hin]; simp) (fun b hb => ?_) key hkey
      rcases List.mem_append.1 hb with h1 | h1
      · exact hpre b h1
      · rw [List.mem_singleton] at h1
        rw [h1]
        exact ⟨fun h => hv (Or.inl h), fun h => hv (Or.inr h)⟩

/-- The derived key is a prefix of the pattern that holds no `:` and no `*`. -/
theorem deriveKey_prefix (inPath key : Str) (h : deriveKey inPath = some key) :
    key <+: inPath ∧ ∀ b ∈ key, b ≠ colon ∧ b ≠ star :=
  keyLoop_prefix inPath inPath [] rfl (fun b hb => by simp at hb) key h

theorem prefix_append_cases (k s t : Str) (h : k <+: s ++ t) :
    k <+: s ∨ ∃ k1, k = s ++ k1 ∧ k1 <+: t := by
  rcases List.prefix_or_prefix_of_prefix h (List.prefix_append s t) with h1 | h1
  · exact Or.inl h1
  · obtain ⟨k1, hk1⟩ := h1
    refine Or.inr ⟨k1, hk1.symm, ?_⟩
    rw [← hk1] at h
    exact (List.prefix_append_right_inj s).1 h

theorem instantiates_nil_left (rs : List Str) (h : instantiates [] rs = true) : rs = [] := by
  cases rs with
  | nil => rfl
  | cons v rs => simp [instantiates] at h

theorem instantiates_cons_left (s : Str) (ps rs : List Str)
    (h : instantiates (s :: ps) rs = true) : rs ≠ [] := by
  cases rs with
  | nil => simp [instantiates] at h
  | cons v rs => simp

/-- A prefix of a pattern that holds no `:` and no `*` is a prefix of every
request that instantiates the pattern. -/
theorem instantiates_prefix :
    ∀ (ps rs : List Str), instantiates ps rs = true → ∀ k : Str, k <+: stringsJoin ps →
      (∀ b ∈ k, b ≠ colon ∧ b ≠ star) → k <+: stringsJoin rs := by
  intro ps
  induction ps with
  | nil =>
    intro rs hinst k hk _
    rw [instantiates_nil_left rs hinst]
    exact hk
  | cons s ps ih =>
    intro rs hinst k hk hfree
    cases rs with
    | nil => simp [instantiates] at hinst
    | cons v rs =>
      have hmarker : ∀ m : UInt8, (m = colon ∨ m = star) → s.head? = some m → k = [] := by
        intro m hm hhead
        cases s with
        | nil => simp at hhead
        | cons c t =>
          simp only [List.head?_cons, Option.some.injEq] at hhead
          rw [stringsJoin_cons_cons, List.prefix_cons_iff] at hk
          rcases hk with h0 | ⟨t1, ht1, _⟩
          · exact h0
          · have hmem : c ∈ k := by rw [ht1]; exact List.mem_cons_self c t1
            have := hfree c hmem
            rw [hhead] at this
            rcases hm with h1 | h1
            · exact absurd h1 this.1
            · exact absurd h1 this.2
      rw [instantiates] at hinst
      by_cases hstar : s.head? = some star
      · rw [hmarker star (Or.inr rfl) hstar]; exact List.nil_prefix
      · rw [if_neg hstar] at hinst
        by_cases hcol : s.head? = some colon
        · rw [hmarker colon (Or.inl rfl) hcol]; exact List.nil_prefix
        · rw [if_neg hcol, Bool.and_eq_true, decide_eq_true_eq] at hinst
          obtain ⟨hv, hrest⟩ := hinst
          subst hv
          cases ps with
          | nil =>
            rw [instantiates_nil_left rs hrest]
            exact hk
          | cons p1 ps1 =>
            cases rs with
            | nil => exact absurd rfl (instantiates_cons_left p1 ps1 [] hrest)
            | cons r1 rs1 =>
              have hj1 : stringsJoin (v :: p1 :: ps1) = v ++ slash :: stringsJoin (p1 :: ps1) := by
                simp [stringsJoin]
              have hj2 : stringsJoin (v :: r1 :: rs1) = v ++ slash :: stringsJoin (r1 :: rs1) := by
                simp [stringsJoin]
              rw [hj1] at hk
              rw [hj2]
              rcases prefix_append_cases k v _ hk with h1 | ⟨k1, hk1, hk2⟩
              · exact h1.trans (List.prefix_append v _)
              · rw [hk1, List.prefix_append_right_inj]
                rw [List.prefix_cons_iff] at hk2
                rcases hk2 with h0 | ⟨k2, hk3, hk4⟩
                · rw [h0]; exact List.nil_prefix
                · rw [hk3, List.prefix_cons_inj]
                  refine ih (r1 :: rs1) hrest k2 hk4 (fun b hb => hfree b ?_)
                  rw [hk1, hk3]
                  exact List.mem_append_right v (List.mem_cons_of_mem slash hb)

theorem get_insertNew (h : APIHandler) (key k : Str) (p : Proxy) (hnone : h.get key = none) :
    (h.insertNew key p).get k = if k = key then some p else h.get k := by
  have hnot := (get_eq_none_iff h key).1 hnone
  obtain ⟨l⟩ := h
  simp only [APIHandler.insertNew, APIHandler.get, List.find?_append] at *
  by_cases hk : k = key
  · subst hk
    have hfind : l.find? (fun kv : Str × Proxy => decide (kv.1 = k)) = none := by
      rw [List.find?_eq_none]
      intro kv hkv hdec
      exact hnot (List.mem_map.2 ⟨kv, hkv, of_decide_eq_true hdec⟩)
    simp [hfind]
  · have hkk : ¬ key = k := fun h1 => hk h1.symm
    cases hfind : l.find? (fun kv : Str × Proxy => decide (kv.1 = k)) with
    | none => simp [hk, hkk]
    | some kv => simp [hk]

/-- Every way `SetKey` can end: unless it returns without error the registry is
unchanged, and when it does, both patterns have split and the derived key
holds a route with these templates and the balancer of the factory. -/
theorem SetKey_outcome (h : APIHandler) (inPath out : Str) (factory : LoadBalancerFactory) :
    ((SetKey h inPath out factory).1 ≠ .ok () → (SetKey h inPath out factory).2 = h) ∧
    ((SetKey h inPath out factory).1 = .ok () →
      ∃ key inSlice outSlice q, deriveKey inPath = some key ∧ SplitUrl inPath = .ok inSlice ∧
        SplitUrl out = .ok outSlice ∧ (SetKey h inPath out factory).2.get key = some q ∧
        q.inSlice = inSlice ∧ q.outSlice = outSlice ∧ q.LoadBalancer = factory ()) := by
  unfold SetKey
  cases hkey : deriveKey inPath with
  | none => simp
  | some key =>
    simp only
    cases hin : SplitUrl inPath with
    | error e => simp
    | fault => simp
    | ok inSlice =>
      simp only
      cases hout : SplitUrl out with
      | error e => simp
      | fault => simp
      | ok outSlice =>
        simp only
        cases hg : h.get key with
        | none =>
          refine ⟨fun hne => absurd rfl hne, fun _ => ⟨key, inSlice, outSlice,
            freshRoute inSlice outSlice (factory ()), rfl, rfl, rfl, ?_, rfl, rfl, rfl⟩⟩
          rw [get_insertNew h key key _ hg, if_pos rfl]
          rfl
        | some q0 =>
          refine ⟨fun hne => absurd rfl hne, fun _ => ⟨key, inSlice, outSlice,
            { q0 with inSlice := inSlice, outSlice := outSlice, LoadBalancer := factory () },
            rfl, rfl, rfl, ?_, rfl, rfl, rfl⟩⟩
          rw [get_modify, if_pos rfl, hg]
          rfl

/-- A successful `SetKey` on the empty registry leaves the registry with the
single route of the two patterns, stored under the derived key. -/
theorem SetKey_on_empty (inPath out : Str) (factory : LoadBalancerFactory) (h1 : APIHandler)
    (hok : SetKey NewAPIHandler inPath out factory = (.ok (), h1)) :
    ∃ key inSlice outSlice, deriveKey inPath = some key ∧ SplitUrl inPath = .ok inSlice ∧
      SplitUrl out = .ok outSlice ∧
      h1.Proxies = [(key, freshRoute inSlice outSlice (factory ()))] := by
  unfold SetKey at hok
  cases hkey : deriveKey inPath with
  | none => rw [hkey] at hok; simp at hok
  | some key =>
    rw [hkey] at hok
    simp only at hok
    cases hin : SplitUrl inPath with
    | error e => rw [hin] at hok; simp at hok
    | fault => rw [hin] at hok; simp at hok
    | ok inSlice =>
      rw [hin] at hok
      simp only at hok
      cases hout : SplitUrl out with
      | error e => rw [hout] at hok; simp at hok
      | fault => rw [hout] at hok; simp at hok
      | ok outSlice =>
        rw [hout] at hok
        have hnone : NewAPIHandler.get key = none := rfl
        simp only [hnone] at hok
        refine ⟨key, inSlice, outSlice, rfl, rfl, rfl, ?_⟩
        rw [← (Prod.mk.inj hok).2]
        rfl

/-- C19: after a successful `SetKey` of an input pattern on the empty
registry, the registry holds one route, under the key derived from the
pattern, and `MatchRouter` returns that route, in every enumeration order, for
every request path whose pieces instantiate the pieces of the pattern (each
`:name` piece replaced by a non-empty piece, a last `*name` piece by one or
more pieces, the other pieces kept). -/
theorem MatchRouter_finds_instances (inPath out : Str) (factory : LoadBalancerFactory)
    (h1 : APIHandler) (rs : List Str) (order : MapOrder)
    (hok : SetKey NewAPIHandler inPath out factory = (.ok (), h1))
    (hinst : instantiates (stringsSplit inPath) rs = true) :
    ∃ key p, deriveKey inPath = some key ∧ h1.Proxies = [(key, p)] ∧
      key <+: stringsJoin rs ∧
      MatchRouter h1 order (stringsJoin rs) = .ok (key, p) := by
  obtain ⟨key, inSlice, outSlice, hkey, _, _, hprox⟩ := SetKey_on_empty inPath out factory h1 hok
  obtain ⟨hpre, hfree⟩ := deriveKey_prefix inPath key hkey
  have hpre2 : key <+: stringsJoin rs :=
    instantiates_prefix (stringsSplit inPath) rs hinst key
      (by rw [stringsJoin_stringsSplit]; exact hpre) hfree
  refine ⟨key, _, hkey, hprox, hpre2, ?_⟩
  unfold MatchRouter
  have henum : order.enum h1.Proxies = [(key, freshRoute inSlice outSlice (factory ()))] := by
    have := order.perm h1.Proxies
    rw [hprox] at this ⊢
    exact List.perm_singleton.1 this
  rw [henum]
  simp [(hasPrefix_iff (stringsJoin rs) key).2 hpre2]

/-- C19 at the input pattern `/svc/:id/files/*rest`, registered with the output
pattern `/v2/:id`: the request `/svc/42/files/a/b` instantiates it and resolves
to the registered route, in the reversed enumeration as well. -/
theorem MatchRouter_finds_instances_witness :
    ∃ key p, deriveKey (ascii "/svc/:id/files/*rest") = some key ∧
      (SetKey NewAPIHandler (ascii "/svc/:id/files/*rest") (ascii "/v2/:id")
        RoundRobin).2.Proxies = [(key, p)] ∧
      key <+: stringsJoin [ascii "", ascii "svc", ascii "42", ascii "files", ascii "a", ascii "b"] ∧
      MatchRouter
        (SetKey NewAPIHandler (ascii "/svc/:id/files/*rest") (ascii "/v2/:id") RoundRobin).2
        orderReversed
        (stringsJoin [ascii "", ascii "svc", ascii "42", ascii "files", ascii "a", ascii "b"]) =
        .ok (key, p) :=
  MatchRouter_finds_instances (ascii "/svc/:id/files/*rest") (ascii "/v2/:id") RoundRobin
    (SetKey NewAPIHandler (ascii "/svc/:id/files/*rest") (ascii "/v2/:id") RoundRobin).2
    [ascii "", ascii "svc", ascii "42", ascii "files", ascii "a", ascii "b"] orderReversed
    (by decide) (by decide)

end GoAPIProxy
